import Mathlib

/-!
# Verification of the bodhak-backend ordered-list ranking engine

This file embeds the rank-computation logic of the bodhak backend
(`src/index.ts`): the helper `calculateNewRank`, the admin reorder / create /
title-update handlers, and the rank library it delegates to.

The repository delegates rank arithmetic to the third-party
`@dalet-oss/lexorank` package, whose source is not part of the repository.
That library (`LexoRank.parse`, `LexoRank.middle`, `genNext`, `genPrev`,
`between`) is therefore modelled from the specification (`spec.md`, §2–§4):
ranks are strings made of a single-character bucket, a `|` separator, and a
non-empty variable-length base-36 mantissa, compared byte-wise; `between`
takes the midpoint of the two values at the finest precision needed to
separate them, extending the mantissa only as far as required.  Every
definition modelled this way carries a doc comment starting
`Modelled from the spec:`.  Everything else is translated directly from
`src/index.ts`.
-/

namespace Bodhak

/-! ## Base-36 digits and their characters -/

/-- A base-36 digit character: `0`–`9` or lowercase `a`–`z`. -/
def isDigit36 (c : Char) : Bool :=
  ('0' ≤ c && c ≤ '9') || ('a' ≤ c && c ≤ 'z')

/-- Numeric value of a base-36 digit character. -/
def digitVal (c : Char) : Nat :=
  if c ≤ '9' then c.toNat - '0'.toNat else c.toNat - 'a'.toNat + 10

/-- The character of a base-36 digit (`0 ≤ d < 36`). -/
def digitChar36 (d : Nat) : Char :=
  if d < 10 then Char.ofNat ('0'.toNat + d) else Char.ofNat ('a'.toNat + (d - 10))

/-- Every digit of the list is a legal base-36 digit. -/
def Valid36 (ds : List Nat) : Prop := ∀ d ∈ ds, d < 36

instance : DecidablePred Valid36 := fun ds => List.decidableBAll _ ds

/-! ## The rank data type

Modelled from the spec: a rank is "a single-character bucket prefix followed
by a base-36 fractional mantissa, ordered first by bucket, then by mantissa
as a string" (§2).  The bucket is one of the characters `0`, `1`, `2`
(the buckets of the scenario ranks in §8; stored here as a `Nat < 3`) and the
mantissa is a non-empty list of base-36 digits. -/

structure LexoRank where
  bucket : Nat
  digits : List Nat
deriving DecidableEq

/-- A structurally well-formed rank: bucket in range, non-empty mantissa of
base-36 digits. -/
def validRank (r : LexoRank) : Prop :=
  r.bucket < 3 ∧ r.digits ≠ [] ∧ Valid36 r.digits

instance : DecidablePred validRank := fun _ => by
  unfold validRank; infer_instance

/-- The string form of a rank: bucket character, `|`, mantissa digits.
Byte-wise comparison of these strings is the order the database uses
(`ORDER BY rank ASC`). -/
def toStr (r : LexoRank) : String :=
  ⟨digitChar36 r.bucket :: '|' :: r.digits.map digitChar36⟩

/-- Modelled from the spec: the rank grammar (§2, §4.1 "bucket+mantissa
grammar").  A rank string is `b|m` with `b` a bucket character (`0`, `1` or
`2`) and `m` a non-empty string of base-36 digits; everything else fails to
parse.  `parseCore` checks a candidate first character, separator character
and mantissa character list. -/
def parseCore (c p : Char) (rest : List Char) : Option LexoRank :=
  if (c == '0' || c == '1' || c == '2') && p == '|' &&
      !rest.isEmpty && rest.all isDigit36 then
    some ⟨digitVal c, rest.map digitVal⟩
  else none

/-- Modelled from the spec: the rank grammar (§2, §4.1 "bucket+mantissa
grammar").  `parse` accepts exactly the strings matching the grammar and
fails on everything else.  This stands in for `LexoRank.parse` of the
`@dalet-oss/lexorank` package, which is not part of the repository. -/
def parse (s : String) : Option LexoRank :=
  match s.data with
  | c :: p :: rest => parseCore c p rest
  | _ => none

/-! ## Mantissa arithmetic -/

/-- The integer value of a big-endian base-36 digit list. -/
def val : List Nat → Nat
  | [] => 0
  | d :: ds => d * 36 ^ ds.length + val ds

/-- The value of a digit list once (conceptually) padded with trailing zeros
to length `n` — the value "at precision `n`". -/
def valAt (n : Nat) (ds : List Nat) : Nat := val ds * 36 ^ (n - ds.length)

/-- The `n` base-36 digits of `v` (most significant first); `v < 36 ^ n`. -/
def toDigits : Nat → Nat → List Nat
  | 0, _ => []
  | n + 1, v => toDigits n (v / 36) ++ [v % 36]

/-- Boolean lexicographic comparison of digit lists, matching byte-wise
comparison of the mantissa portions of rank strings (a strict prefix sorts
first). -/
def lexLtB : List Nat → List Nat → Bool
  | _, [] => false
  | [], _ :: _ => true
  | a :: as, b :: bs => decide (a < b) || (a == b && lexLtB as bs)

/-- Boolean comparison of whole ranks: bucket first, then mantissa. -/
def rankLtB (r s : LexoRank) : Bool :=
  decide (r.bucket < s.bucket) || (r.bucket == s.bucket && lexLtB r.digits s.digits)

/-! ## The rank operations -/

/-- Modelled from the spec: the canonical "middle" rank of the representable
space, "a fixed default bucket/mantissa" (§4.1); the §8 scenarios place it at
`0|hzzzzz`, the midpoint of the six-digit mantissa space of bucket `0`.
Stands in for `LexoRank.middle()`. -/
def middle : LexoRank := ⟨0, [17, 35, 35, 35, 35, 35]⟩

/-- Modelled from the spec: "the smallest rank strictly greater than `A`
representable at one step of precision beyond `A`" (§4.1 generate-next).
At one more digit of mantissa precision the smallest string sorting strictly
after `A` is `A` with a `0` digit appended.  Stands in for
`LexoRank.genNext()`. -/
def genNext (r : LexoRank) : LexoRank := ⟨r.bucket, r.digits ++ [0]⟩

/-- Modelled from the spec: "the largest rank strictly less than `B`
representable at one step of precision below `B`" (§4.1 generate-previous),
staying in `B`'s bucket.  For a mantissa of value `v > 0` and length `n`, the
largest shorter-sorting string with one more digit is the length-`n` digits
of `v - 1` followed by the digit `z`.  For an all-zero mantissa nothing
smaller exists at extended precision, so the precision step goes the other
way (one digit is dropped); for the one-digit mantissa `0` — the minimum of
its bucket — no smaller rank exists at all and the operation signals
failure.  Stands in for `LexoRank.genPrev()`. -/
def genPrev (r : LexoRank) : Option LexoRank :=
  if val r.digits = 0 then
    if 2 ≤ r.digits.length then
      some ⟨r.bucket, List.replicate (r.digits.length - 1) 0⟩
    else none
  else
    some ⟨r.bucket, toDigits r.digits.length (val r.digits - 1) ++ [35]⟩

/-- Modelled from the spec: the midpoint of two mantissas `A <lex B` "at the
finest precision needed to separate them, extending precision (adding
mantissa digits) only as far as required" (§4.1).  At precision
`n0 = max |A| |B|`: if the values differ by at least 2 the midpoint already
separates them there; if they differ by exactly 1 one more digit suffices
(the gap becomes 36); if the values are equal then `B` is `A` extended by
zeros, and the only case with no room at all — the engine "signals that no
valid rank exists" (§2) — is `B = A ++ [0]`, the immediate successor of `A`
in byte-wise order; otherwise `A ++ [0]` itself lies strictly between.
Contradictory bounds (`¬ A <lex B`) are an error (§7). -/
def betweenDigits (A B : List Nat) : Option (List Nat) :=
  if lexLtB A B then
    let n0 := max A.length B.length
    let dA := valAt n0 A
    let dB := valAt n0 B
    if dB = dA then
      if B.length = A.length + 1 then none else some (A ++ [0])
    else if dB = dA + 1 then
      some (toDigits (n0 + 1) ((valAt (n0 + 1) A + valAt (n0 + 1) B) / 2))
    else
      some (toDigits n0 ((dA + dB) / 2))
  else none

/-- Modelled from the spec: `before.between(after)` returns a rank strictly
between `after` and `before` when `after` sorts strictly before `before`
(§4.1 row 4, §8 line 1), and signals an error on contradictory bounds (§7)
or when the gap is empty (§2).  Within one bucket this is the mantissa
midpoint; when `after` lies in a strictly smaller bucket any one-step
precision extension of `after` already lies strictly between.  Stands in for
`LexoRank.between()`. -/
def between (before after : LexoRank) : Option LexoRank :=
  if after.bucket < before.bucket then
    some ⟨after.bucket, after.digits ++ [0]⟩
  else if after.bucket == before.bucket then
    (betweenDigits after.digits before.digits).map (fun ds => ⟨after.bucket, ds⟩)
  else none

/-! ## `calculateNewRank` (src/index.ts, lines 39–54) -/

/-- One neighbour argument of `calculateNewRank`:
`rank ? LexoRank.parse(rank) : null`.  The JavaScript condition is
*truthiness*, so the empty string — like `undefined` — yields `null` and is
never parsed; any other string is parsed and a parse failure is a thrown
error. -/
def parseNeighbor (x : Option String) : Except String (Option LexoRank) :=
  match x with
  | none => Except.ok none
  | some s =>
      if s = "" then Except.ok none
      else
        match parse s with
        | some r => Except.ok (some r)
        | none => Except.error "Invalid rank string"

/-- `calculateNewRank` from src/index.ts: parse the `before` neighbour, parse
the `after` neighbour, then `between` / `genPrev` / `genNext` / `undefined`
according to which neighbours are present.  Thrown errors are `Except.error`;
the `undefined` result is `Except.ok none`. -/
def calculateNewRank (beforeRank afterRank : Option String) :
    Except String (Option LexoRank) :=
  match parseNeighbor beforeRank with
  | Except.error e => Except.error e
  | Except.ok rankBefore =>
    match parseNeighbor afterRank with
    | Except.error e => Except.error e
    | Except.ok rankAfter =>
      match rankBefore, rankAfter with
      | some rb, some ra =>
          match between rb ra with
          | some m => Except.ok (some m)
          | none => Except.error "Unable to rank between"
      | some rb, none =>
          match genPrev rb with
          | some m => Except.ok (some m)
          | none => Except.error "Unable to generate previous rank"
      | none, some ra => Except.ok (some (genNext ra))
      | none, none => Except.ok none

/-! ## Database rows (src/types.ts) and the admin handlers (src/index.ts)

The relational store is modelled as in-memory lists of rows; a SQL
`UPDATE … SET col = ? WHERE id = ?` is a map that rewrites exactly the named
column of the matching rows, and `SELECT rank … ORDER BY rank DESC LIMIT 1`
is the byte-wise maximum of the scope's rank strings (the spec fixes the
collation to byte-wise comparison, §6). -/

structure Subject where
  id : Nat
  title : String
  rank : String
deriving DecidableEq

structure Topic where
  id : Nat
  subject_id : Nat
  title : String
  rank : String
deriving DecidableEq

structure Article where
  id : Nat
  topic_id : Nat
  title : String
  file_path : String
  rank : String
deriving DecidableEq

/-- `SELECT rank FROM … ORDER BY rank DESC LIMIT 1` over the given scope:
the byte-wise greatest rank string, or `none` on an empty scope. -/
def maxRankStr : List String → Option String
  | [] => none
  | r :: rs =>
      match maxRankStr rs with
      | none => some r
      | some m => some (if r < m then m else r)

/-- The shared create logic of the `POST /api/admin/subjects`, `…/topics`
and `…/articles` handlers:
`lastRank ? lastRank.genNext() : LexoRank.middle()`, where `lastRank` is the
parse of the scope's greatest rank (or `null` on an empty scope). -/
def newRankForCreate (lastRank : Option String) : Except String LexoRank :=
  match lastRank with
  | none => Except.ok middle
  | some s =>
      match parse s with
      | some r => Except.ok (genNext r)
      | none => Except.error "Invalid rank string"

/-- `POST /api/admin/subjects`: append a subject ranked after the whole
scope.  Returns the new table and the stored rank string. -/
def createSubject (db : List Subject) (newId : Nat) (title : String) :
    Except String (List Subject × String) :=
  match newRankForCreate (maxRankStr (db.map (fun r => r.rank))) with
  | Except.error e => Except.error e
  | Except.ok m => Except.ok (db ++ [⟨newId, title, toStr m⟩], toStr m)

/-- `POST /api/admin/topics`: append a topic ranked after the topics of its
subject. -/
def createTopic (db : List Topic) (newId : Nat) (title : String)
    (subjectId : Nat) : Except String (List Topic × String) :=
  match newRankForCreate
      (maxRankStr ((db.filter (fun r => r.subject_id = subjectId)).map
        (fun r => r.rank))) with
  | Except.error e => Except.error e
  | Except.ok m => Except.ok (db ++ [⟨newId, subjectId, title, toStr m⟩], toStr m)

/-- `POST /api/admin/articles` (database part): append an article ranked
after the articles of its topic. -/
def createArticle (db : List Article) (newId : Nat) (title : String)
    (topicId : Nat) (filePath : String) : Except String (List Article × String) :=
  match newRankForCreate
      (maxRankStr ((db.filter (fun r => r.topic_id = topicId)).map
        (fun r => r.rank))) with
  | Except.error e => Except.error e
  | Except.ok m =>
      Except.ok (db ++ [⟨newId, topicId, title, filePath, toStr m⟩], toStr m)

/-- Outcome of a reorder request as seen by the client. -/
inductive ReorderOutcome where
  | badRequest : ReorderOutcome
  | serverError : String → ReorderOutcome
  | ok : String → ReorderOutcome
deriving DecidableEq

/-- `POST /api/admin/subjects/reorder`: run `calculateNewRank` on the
supplied neighbour ranks; a thrown error escapes the handler (HTTP 500), an
`undefined` result is the 400 `Invalid reorder request` response, otherwise
`UPDATE subjects SET rank = ? WHERE id = ?` stores the new rank and the
handler answers 200. -/
def reorderSubjects (db : List Subject) (id : Nat)
    (beforeRank afterRank : Option String) : ReorderOutcome × List Subject :=
  match calculateNewRank beforeRank afterRank with
  | Except.error e => (ReorderOutcome.serverError e, db)
  | Except.ok none => (ReorderOutcome.badRequest, db)
  | Except.ok (some m) =>
      (ReorderOutcome.ok (toStr m),
       db.map (fun r => if r.id = id then { r with rank := toStr m } else r))

/-- `POST /api/admin/topics/reorder` (same shape as the subject handler). -/
def reorderTopics (db : List Topic) (id : Nat)
    (beforeRank afterRank : Option String) : ReorderOutcome × List Topic :=
  match calculateNewRank beforeRank afterRank with
  | Except.error e => (ReorderOutcome.serverError e, db)
  | Except.ok none => (ReorderOutcome.badRequest, db)
  | Except.ok (some m) =>
      (ReorderOutcome.ok (toStr m),
       db.map (fun r => if r.id = id then { r with rank := toStr m } else r))

/-- `PUT /api/admin/subjects/:id`:
`UPDATE subjects SET title = ? WHERE id = ?`. -/
def updateSubjectTitle (db : List Subject) (id : Nat) (title : String) :
    List Subject :=
  db.map (fun r => if r.id = id then { r with title := title } else r)

/-! ## Lemmas about base-36 digit characters -/

theorem char_le_iff_toNat {c d : Char} : c ≤ d ↔ c.toNat ≤ d.toNat := by
  rw [Char.le_def, UInt32.le_def, BitVec.le_def]; rfl

theorem nine_toNat : '9'.toNat = 57 := by decide

theorem zero_toNat : '0'.toNat = 48 := by decide

theorem a_toNat : 'a'.toNat = 97 := by decide

theorem digitChar36_lt_iff : ∀ a < 36, ∀ b < 36,
    (digitChar36 a < digitChar36 b ↔ a < b) := by decide

theorem digitChar36_eq_iff : ∀ a < 36, ∀ b < 36,
    (digitChar36 a = digitChar36 b ↔ a = b) := by decide

theorem digitVal_digitChar36 : ∀ d < 36, digitVal (digitChar36 d) = d := by decide

theorem isDigit36_digitChar36 : ∀ d < 36, isDigit36 (digitChar36 d) = true := by decide

theorem isDigit36_toNat {c : Char} (h : isDigit36 c = true) :
    (48 ≤ c.toNat ∧ c.toNat ≤ 57) ∨ (97 ≤ c.toNat ∧ c.toNat ≤ 122) := by
  unfold isDigit36 at h
  simp only [Bool.or_eq_true, Bool.and_eq_true, decide_eq_true_eq] at h
  rcases h with ⟨h1, h2⟩ | ⟨h1, h2⟩
  · exact Or.inl ⟨char_le_iff_toNat.1 h1, char_le_iff_toNat.1 h2⟩
  · exact Or.inr ⟨char_le_iff_toNat.1 h1, char_le_iff_toNat.1 h2⟩

theorem digitVal_lt_of_isDigit36 {c : Char} (h : isDigit36 c = true) :
    digitVal c < 36 := by
  unfold digitVal
  rcases isDigit36_toNat h with ⟨h1, h2⟩ | ⟨h1, h2⟩
  · rw [if_pos (char_le_iff_toNat.2 (by rw [nine_toNat]; omega))]
    rw [zero_toNat]; omega
  · rw [if_neg (fun hc => by
      have := char_le_iff_toNat.1 hc; rw [nine_toNat] at this; omega)]
    rw [a_toNat]; omega

theorem digitChar36_digitVal {c : Char} (h : isDigit36 c = true) :
    digitChar36 (digitVal c) = c := by
  rcases isDigit36_toNat h with ⟨h1, h2⟩ | ⟨h1, h2⟩
  · have hd : digitVal c = c.toNat - '0'.toNat := by
      unfold digitVal
      rw [if_pos (char_le_iff_toNat.2 (by rw [nine_toNat]; omega))]
    rw [hd]
    unfold digitChar36
    rw [if_pos (by rw [zero_toNat]; omega)]
    have h3 : '0'.toNat + (c.toNat - '0'.toNat) = c.toNat := by rw [zero_toNat]; omega
    rw [h3, Char.ofNat_toNat]
  · have hd : digitVal c = c.toNat - 'a'.toNat + 10 := by
      unfold digitVal
      rw [if_neg (fun hc => by
        have := char_le_iff_toNat.1 hc; rw [nine_toNat] at this; omega)]
    rw [hd]
    unfold digitChar36
    rw [if_neg (by rw [a_toNat]; omega)]
    have h3 : 'a'.toNat + (c.toNat - 'a'.toNat + 10 - 10) = c.toNat := by
      rw [a_toNat]; omega
    rw [h3, Char.ofNat_toNat]

/-! ## Lemmas about the lexicographic comparison of digit lists -/

theorem lexLtB_nil_right (A : List Nat) : lexLtB A [] = false := by
  cases A <;> rfl

theorem lexLtB_nil_cons (b : Nat) (bs : List Nat) :
    lexLtB [] (b :: bs) = true := rfl

theorem lexLtB_cons_iff {a b : Nat} {as bs : List Nat} :
    lexLtB (a :: as) (b :: bs) = true ↔ a < b ∨ (a = b ∧ lexLtB as bs = true) := by
  simp [lexLtB]

theorem lexLtB_irrefl (A : List Nat) : lexLtB A A = false := by
  induction A with
  | nil => rfl
  | cons a as ih => simp [lexLtB, ih]

theorem lexLtB_trans {A B C : List Nat} (h1 : lexLtB A B = true)
    (h2 : lexLtB B C = true) : lexLtB A C = true := by
  induction A generalizing B C with
  | nil =>
    cases C with
    | nil => rw [lexLtB_nil_right] at h2; cases h2
    | cons c cs => rfl
  | cons a as ih =>
    cases B with
    | nil => rw [lexLtB_nil_right] at h1; cases h1
    | cons b bs =>
      cases C with
      | nil => rw [lexLtB_nil_right] at h2; cases h2
      | cons c cs =>
        rw [lexLtB_cons_iff] at h1 h2 ⊢
        rcases h1 with h1 | ⟨rfl, h1⟩
        · rcases h2 with h2 | ⟨rfl, h2⟩
          · exact Or.inl (Nat.lt_trans h1 h2)
          · exact Or.inl h1
        · rcases h2 with h2 | ⟨rfl, h2⟩
          · exact Or.inl h2
          · exact Or.inr ⟨rfl, ih h1 h2⟩

theorem lexLtB_antisymm {A B : List Nat} (h1 : lexLtB A B = false)
    (h2 : lexLtB B A = false) : A = B := by
  induction A generalizing B with
  | nil =>
    cases B with
    | nil => rfl
    | cons b bs => cases h1
  | cons a as ih =>
    cases B with
    | nil => cases h2
    | cons b bs =>
      rw [Bool.eq_false_iff, Ne, lexLtB_cons_iff] at h1 h2
      push_neg at h1 h2
      have hab : a = b := by omega
      subst hab
      rw [ih (Bool.eq_false_iff.2 (h1.2 rfl)) (Bool.eq_false_iff.2 (h2.2 rfl))]

theorem lexLtB_append_cons (A : List Nat) (x : Nat) (xs : List Nat) :
    lexLtB A (A ++ x :: xs) = true := by
  induction A with
  | nil => rfl
  | cons a as ih => simp [lexLtB, ih]

theorem lexLtB_append_left (C A B : List Nat) :
    lexLtB (C ++ A) (C ++ B) = lexLtB A B := by
  induction C with
  | nil => rfl
  | cons c cs ih => simp [lexLtB, ih]

theorem lexLtB_append_strict {X B : List Nat} (h : X.length = B.length)
    (hlt : lexLtB X B = true) (Y : List Nat) : lexLtB (X ++ Y) B = true := by
  induction X generalizing B with
  | nil =>
    have : B = [] := by cases B with
      | nil => rfl
      | cons b bs => cases h
    subst this; cases hlt
  | cons x xs ih =>
    cases B with
    | nil => cases hlt
    | cons b bs =>
      rw [lexLtB_cons_iff] at hlt
      rw [List.cons_append, lexLtB_cons_iff]
      rcases hlt with hlt | ⟨rfl, hlt⟩
      · exact Or.inl hlt
      · exact Or.inr ⟨rfl, ih (by simpa using h) hlt⟩

theorem lexLtB_not_append (B Y : List Nat) : lexLtB (B ++ Y) B = false := by
  induction B with
  | nil => exact lexLtB_nil_right Y
  | cons b bs ih => simp [lexLtB, ih]

/-! ## Lemmas about mantissa values -/

theorem Valid36_cons {a : Nat} {as : List Nat} (h : Valid36 (a :: as)) :
    a < 36 ∧ Valid36 as :=
  ⟨h a (List.mem_cons_self a as), fun d hd => h d (List.mem_cons_of_mem a hd)⟩

theorem Valid36_append {A B : List Nat} (hA : Valid36 A) (hB : Valid36 B) :
    Valid36 (A ++ B) := by
  intro d hd
  rcases List.mem_append.1 hd with h | h
  · exact hA d h
  · exact hB d h

theorem val_append (A B : List Nat) :
    val (A ++ B) = val A * 36 ^ B.length + val B := by
  induction A with
  | nil => simp [val]
  | cons a as ih =>
    have hc : (a :: as) ++ B = a :: (as ++ B) := rfl
    rw [hc]
    show a * 36 ^ (as ++ B).length + val (as ++ B) = _
    rw [ih, List.length_append, pow_add]
    simp only [val]
    ring

theorem val_lt {A : List Nat} (h : Valid36 A) : val A < 36 ^ A.length := by
  induction A with
  | nil => simp [val]
  | cons a as ih =>
    obtain ⟨ha, has⟩ := Valid36_cons h
    have h1 : val as < 36 ^ as.length := ih has
    have h2 : a * 36 ^ as.length + 36 ^ as.length ≤ 36 ^ (as.length + 1) := by
      have : (a + 1) * 36 ^ as.length ≤ 36 * 36 ^ as.length :=
        Nat.mul_le_mul_right _ (by omega)
      calc a * 36 ^ as.length + 36 ^ as.length = (a + 1) * 36 ^ as.length := by ring
        _ ≤ 36 * 36 ^ as.length := this
        _ = 36 ^ (as.length + 1) := by ring
    simp only [val, List.length_cons]
    omega

theorem val_replicate_zero (k : Nat) : val (List.replicate k 0) = 0 := by
  induction k with
  | zero => rfl
  | succ n ih => simp [List.replicate_succ, val, ih]

theorem lexLtB_iff_val_lt {A B : List Nat} (hA : Valid36 A) (hB : Valid36 B)
    (h : A.length = B.length) : lexLtB A B = true ↔ val A < val B := by
  induction A generalizing B with
  | nil =>
    have : B = [] := by cases B with
      | nil => rfl
      | cons b bs => cases h
    subst this
    simp [lexLtB_nil_right]
  | cons a as ih =>
    cases B with
    | nil => cases h
    | cons b bs =>
      obtain ⟨ha, has⟩ := Valid36_cons hA
      obtain ⟨hb, hbs⟩ := Valid36_cons hB
      have hn : as.length = bs.length := by simpa using h
      have hvA : val as < 36 ^ as.length := val_lt has
      have hvB : val bs < 36 ^ bs.length := val_lt hbs
      have hpow : (36 : Nat) ^ as.length = 36 ^ bs.length := by rw [hn]
      rw [lexLtB_cons_iff, ih has hbs hn]
      simp only [val]
      constructor
      · rintro (hab | ⟨rfl, htail⟩)
        · have h1 : (a + 1) * 36 ^ as.length ≤ b * 36 ^ bs.length := by
            rw [← hpow]; exact Nat.mul_le_mul_right _ (by omega)
          nlinarith
        · rw [hpow]; omega
      · intro hv
        rcases Nat.lt_trichotomy a b with hab | rfl | hab
        · exact Or.inl hab
        · exact Or.inr ⟨rfl, by rw [hpow] at hv; omega⟩
        · exfalso
          have h1 : (b + 1) * 36 ^ bs.length ≤ a * 36 ^ as.length := by
            rw [hpow]; exact Nat.mul_le_mul_right _ (by omega)
          nlinarith

theorem eq_of_val_eq {A B : List Nat} (hA : Valid36 A) (hB : Valid36 B)
    (hlen : A.length = B.length) (hval : val A = val B) : A = B := by
  have h1 : lexLtB A B = false := by
    rcases hb : lexLtB A B with _ | _
    · rfl
    · have := (lexLtB_iff_val_lt hA hB hlen).1 hb; omega
  have h2 : lexLtB B A = false := by
    rcases hb : lexLtB B A with _ | _
    · rfl
    · have := (lexLtB_iff_val_lt hB hA hlen.symm).1 hb; omega
  exact lexLtB_antisymm h1 h2

/-! ## Lemmas about `toDigits` and `valAt` -/

theorem toDigits_length (n v : Nat) : (toDigits n v).length = n := by
  induction n generalizing v with
  | zero => rfl
  | succ m ih => simp [toDigits, ih]

theorem toDigits_valid (n v : Nat) : Valid36 (toDigits n v) := by
  induction n generalizing v with
  | zero => intro d hd; cases hd
  | succ m ih =>
    intro d hd
    simp only [toDigits, List.mem_append, List.mem_singleton] at hd
    rcases hd with hd | rfl
    · exact ih (v / 36) d hd
    · exact Nat.mod_lt _ (by omega)

theorem val_toDigits {n v : Nat} (h : v < 36 ^ n) : val (toDigits n v) = v := by
  induction n generalizing v with
  | zero =>
    have : v = 0 := by simpa using h
    simp [toDigits, val, this]
  | succ m ih =>
    have hdiv : v / 36 < 36 ^ m := by
      rw [Nat.div_lt_iff_lt_mul (by omega)]
      calc v < 36 ^ (m + 1) := h
        _ = 36 ^ m * 36 := by ring
    simp only [toDigits, val_append, ih hdiv, val, List.length_cons,
      List.length_nil, pow_one, pow_zero]
    omega

theorem valAt_self (ds : List Nat) : valAt ds.length ds = val ds := by
  simp [valAt]

theorem valAt_append_replicate {A : List Nat} {n : Nat} (_h : A.length ≤ n) :
    val (A ++ List.replicate (n - A.length) 0) = valAt n A := by
  rw [val_append, val_replicate_zero, List.length_replicate, valAt]
  omega

theorem length_append_replicate {A : List Nat} {n : Nat} (_h : A.length ≤ n) :
    (A ++ List.replicate (n - A.length) 0).length = n := by
  simp only [List.length_append, List.length_replicate]
  omega

theorem Valid36_replicate_zero (k : Nat) : Valid36 (List.replicate k 0) := by
  intro d hd
  rw [List.eq_of_mem_replicate hd]
  omega

theorem valAt_lt {A : List Nat} (hA : Valid36 A) {n : Nat} (h : A.length ≤ n) :
    valAt n A < 36 ^ n := by
  have h1 : val A < 36 ^ A.length := val_lt hA
  have h2 : 36 ^ A.length * 36 ^ (n - A.length) = 36 ^ n := by
    rw [← pow_add]; congr 1; omega
  calc valAt n A = val A * 36 ^ (n - A.length) := rfl
    _ < 36 ^ A.length * 36 ^ (n - A.length) := by
        have hp : (0 : Nat) < 36 ^ (n - A.length) := by positivity
        exact (Nat.mul_lt_mul_right hp).2 h1
    _ = 36 ^ n := h2

theorem valAt_cons {a : Nat} {as : List Nat} {n : Nat} (h : as.length ≤ n) :
    valAt (n + 1) (a :: as) = a * 36 ^ n + valAt n as := by
  unfold valAt
  simp only [val, List.length_cons]
  have h1 : n + 1 - (as.length + 1) = n - as.length := by omega
  rw [h1, Nat.add_mul]
  congr 1
  rw [Nat.mul_assoc, ← pow_add]
  congr 2
  omega

theorem valAt_le_of_lexLtB {A B : List Nat} (hA : Valid36 A) (hB : Valid36 B)
    {n : Nat} (hnA : A.length ≤ n) (hnB : B.length ≤ n)
    (h : lexLtB A B = true) : valAt n A ≤ valAt n B := by
  induction A generalizing B n with
  | nil =>
    have : valAt n [] = 0 := by simp [valAt, val]
    omega
  | cons a as ih =>
    cases B with
    | nil => cases h
    | cons b bs =>
      obtain ⟨ha, has⟩ := Valid36_cons hA
      obtain ⟨hb, hbs⟩ := Valid36_cons hB
      cases n with
      | zero => simp at hnA
      | succ m =>
        have hmA : as.length ≤ m := by simpa using hnA
        have hmB : bs.length ≤ m := by simpa using hnB
        rw [valAt_cons hmA, valAt_cons hmB]
        rcases lexLtB_cons_iff.1 h with hab | ⟨rfl, htail⟩
        · have h1 : valAt m as < 36 ^ m := valAt_lt has hmA
          have h2 : (a + 1) * 36 ^ m ≤ b * 36 ^ m :=
            Nat.mul_le_mul_right _ (by omega)
          have h3 : (a + 1) * 36 ^ m = a * 36 ^ m + 36 ^ m := by ring
          omega
        · have := ih has hbs hmA hmB htail
          omega

theorem lexLtB_zeroext {X B : List Nat} (k : Nat)
    (h : lexLtB X (B ++ List.replicate k 0) = true) :
    lexLtB X B = true ∨ ∃ t, X = B ++ t := by
  induction B generalizing X with
  | nil => exact Or.inr ⟨X, rfl⟩
  | cons b bs ih =>
    cases X with
    | nil => exact Or.inl (lexLtB_nil_cons b bs)
    | cons x xs =>
      rw [List.cons_append, lexLtB_cons_iff] at h
      rcases h with h | ⟨rfl, h⟩
      · exact Or.inl (lexLtB_cons_iff.2 (Or.inl h))
      · rcases ih h with h2 | ⟨t, rfl⟩
        · exact Or.inl (lexLtB_cons_iff.2 (Or.inr ⟨rfl, h2⟩))
        · exact Or.inr ⟨t, rfl⟩

theorem zeroext_of_val_eq {A B : List Nat} (hA : Valid36 A) (hB : Valid36 B)
    (hlt : lexLtB A B = true)
    (hval : valAt (max A.length B.length) A = valAt (max A.length B.length) B) :
    A.length < B.length ∧ B = A ++ List.replicate (B.length - A.length) 0 := by
  rcases Nat.lt_or_ge A.length B.length with hl | hl
  · refine ⟨hl, ?_⟩
    have hmax : max A.length B.length = B.length := Nat.max_eq_right (le_of_lt hl)
    rw [hmax] at hval
    have h1 : val (A ++ List.replicate (B.length - A.length) 0) = valAt B.length A :=
      valAt_append_replicate (le_of_lt hl)
    have h2 : valAt B.length B = val B := valAt_self B
    refine (eq_of_val_eq (Valid36_append hA (Valid36_replicate_zero _)) hB
      (length_append_replicate (le_of_lt hl)) ?_).symm
    rw [h1, hval, h2]
  · exfalso
    have hmax : max A.length B.length = A.length := Nat.max_eq_left hl
    rw [hmax] at hval
    have h1 : val (B ++ List.replicate (A.length - B.length) 0) = valAt A.length B :=
      valAt_append_replicate hl
    have h2 : valAt A.length A = val A := valAt_self A
    have h3 : A = B ++ List.replicate (A.length - B.length) 0 := by
      refine eq_of_val_eq hA (Valid36_append hB (Valid36_replicate_zero _))
        (length_append_replicate hl).symm ?_
      rw [h1, ← hval, h2]
    rw [h3, lexLtB_not_append] at hlt
    cases hlt

theorem lexLtB_of_val_upper {M B : List Nat} (hM : Valid36 M) (hB : Valid36 B)
    {n : Nat} (hMlen : M.length = n) (hBlen : B.length ≤ n)
    (h : val M < valAt n B) : lexLtB M B = true := by
  have hpadV : Valid36 (B ++ List.replicate (n - B.length) 0) :=
    Valid36_append hB (Valid36_replicate_zero _)
  have hpadL : (B ++ List.replicate (n - B.length) 0).length = n :=
    length_append_replicate hBlen
  have h1 : lexLtB M (B ++ List.replicate (n - B.length) 0) = true := by
    refine (lexLtB_iff_val_lt hM hpadV (by rw [hMlen, hpadL])).2 ?_
    rw [valAt_append_replicate hBlen]
    exact h
  rcases lexLtB_zeroext _ h1 with h2 | ⟨t, hMeq⟩
  · exact h2
  · exfalso
    subst hMeq
    rw [val_append] at h
    have hlt : t.length = n - B.length := by
      have := hMlen
      simp only [List.length_append] at this
      omega
    rw [hlt] at h
    have : valAt n B = val B * 36 ^ (n - B.length) := rfl
    omega

theorem lexLtB_of_val_lower {A M : List Nat} (hA : Valid36 A) (hM : Valid36 M)
    {n : Nat} (hAlen : A.length ≤ n) (hMlen : M.length = n)
    (h : valAt n A < val M) : lexLtB A M = true := by
  have hpadV : Valid36 (A ++ List.replicate (n - A.length) 0) :=
    Valid36_append hA (Valid36_replicate_zero _)
  have hpadL : (A ++ List.replicate (n - A.length) 0).length = n :=
    length_append_replicate hAlen
  have h1 : lexLtB (A ++ List.replicate (n - A.length) 0) M = true := by
    refine (lexLtB_iff_val_lt hpadV hM (by rw [hMlen, hpadL])).2 ?_
    rw [valAt_append_replicate hAlen]
    exact h
  cases hk : n - A.length with
  | zero =>
    rw [hk, List.replicate_zero, List.append_nil] at h1
    exact h1
  | succ k =>
    rw [hk, List.replicate_succ] at h1
    exact lexLtB_trans (lexLtB_append_cons A 0 (List.replicate k 0)) h1

theorem valAt_succ {A : List Nat} {n : Nat} (h : A.length ≤ n) :
    valAt (n + 1) A = 36 * valAt n A := by
  unfold valAt
  have h1 : n + 1 - A.length = (n - A.length) + 1 := by omega
  rw [h1, pow_succ]
  ring

/-! ## Evaluation lemmas for `betweenDigits` -/

theorem betweenDigits_eq_zeroCase {A B : List Nat} (hlt : lexLtB A B = true)
    (h0 : valAt (max A.length B.length) B = valAt (max A.length B.length) A)
    (hne : B.length ≠ A.length + 1) :
    betweenDigits A B = some (A ++ [0]) := by
  simp only [betweenDigits]
  rw [if_pos hlt, if_pos h0, if_neg hne]

theorem betweenDigits_eq_gapOne {A B : List Nat} (hlt : lexLtB A B = true)
    (h0 : ¬ valAt (max A.length B.length) B = valAt (max A.length B.length) A)
    (h1 : valAt (max A.length B.length) B = valAt (max A.length B.length) A + 1) :
    betweenDigits A B =
      some (toDigits (max A.length B.length + 1)
        ((valAt (max A.length B.length + 1) A +
          valAt (max A.length B.length + 1) B) / 2)) := by
  simp only [betweenDigits]
  rw [if_pos hlt, if_neg h0, if_pos h1]

theorem betweenDigits_eq_gapBig {A B : List Nat} (hlt : lexLtB A B = true)
    (h0 : ¬ valAt (max A.length B.length) B = valAt (max A.length B.length) A)
    (h1 : ¬ valAt (max A.length B.length) B = valAt (max A.length B.length) A + 1) :
    betweenDigits A B =
      some (toDigits (max A.length B.length)
        ((valAt (max A.length B.length) A + valAt (max A.length B.length) B) / 2)) := by
  simp only [betweenDigits]
  rw [if_pos hlt, if_neg h0, if_neg h1]

/-- Core correctness of the mantissa midpoint: whenever `A` sorts strictly
before `B` and `B` is not the immediate byte-wise successor `A ++ [0]`,
`betweenDigits` succeeds with a valid, non-empty digit list strictly between
the two. -/
theorem betweenDigits_sound {A B : List Nat} (hA : Valid36 A) (hB : Valid36 B)
    (hAne : A ≠ []) (hlt : lexLtB A B = true) (hadj : B ≠ A ++ [0]) :
    ∃ M, betweenDigits A B = some M ∧ lexLtB A M = true ∧ lexLtB M B = true ∧
      Valid36 M ∧ M ≠ [] := by
  have hA1 : 1 ≤ A.length := List.length_pos.2 hAne
  have hnA : A.length ≤ max A.length B.length := le_max_left _ _
  have hnB : B.length ≤ max A.length B.length := le_max_right _ _
  have hle : valAt (max A.length B.length) A ≤ valAt (max A.length B.length) B :=
    valAt_le_of_lexLtB hA hB hnA hnB hlt
  by_cases h0 : valAt (max A.length B.length) B = valAt (max A.length B.length) A
  · obtain ⟨hlen, hBeq⟩ := zeroext_of_val_eq hA hB hlt h0.symm
    have hne : B.length ≠ A.length + 1 := by
      intro hc
      apply hadj
      rw [hBeq, hc]
      simp
    refine ⟨A ++ [0], betweenDigits_eq_zeroCase hlt h0 hne,
      lexLtB_append_cons A 0 [], ?_, ?_, by simp⟩
    · rw [hBeq]
      obtain ⟨k, hkk⟩ : ∃ k, B.length - A.length = k + 2 :=
        ⟨B.length - A.length - 2, by omega⟩
      rw [hkk, List.replicate_succ, lexLtB_append_left, List.replicate_succ]
      simp [lexLtB]
    · exact Valid36_append hA (by intro d hd; simp at hd; omega)
  · by_cases h1 : valAt (max A.length B.length) B = valAt (max A.length B.length) A + 1
    · -- the values differ by exactly one: extend precision by one digit
      have hA' : valAt (max A.length B.length + 1) A =
          36 * valAt (max A.length B.length) A := valAt_succ hnA
      have hB' : valAt (max A.length B.length + 1) B =
          36 * valAt (max A.length B.length) B := valAt_succ hnB
      have hveq : (valAt (max A.length B.length + 1) A +
          valAt (max A.length B.length + 1) B) / 2 =
          36 * valAt (max A.length B.length) A + 18 := by
        rw [hA', hB', h1]
        omega
      have hvB : valAt (max A.length B.length + 1) B < 36 ^ (max A.length B.length + 1) :=
        valAt_lt hB (by omega)
      have hvlt : (valAt (max A.length B.length + 1) A +
          valAt (max A.length B.length + 1) B) / 2 < 36 ^ (max A.length B.length + 1) := by
        rw [hveq]
        rw [hB', h1] at hvB
        omega
      have hvval : val (toDigits (max A.length B.length + 1)
          ((valAt (max A.length B.length + 1) A +
            valAt (max A.length B.length + 1) B) / 2)) =
          36 * valAt (max A.length B.length) A + 18 := by
        rw [val_toDigits hvlt, hveq]
      refine ⟨_, betweenDigits_eq_gapOne hlt h0 h1, ?_, ?_, toDigits_valid _ _, ?_⟩
      · refine lexLtB_of_val_lower hA (toDigits_valid _ _) (by omega)
          (toDigits_length _ _) ?_
        rw [hvval, hA']
        omega
      · refine lexLtB_of_val_upper (toDigits_valid _ _) hB
          (toDigits_length _ _) (by omega) ?_
        rw [hvval, hB', h1]
        omega
      · have := toDigits_length (max A.length B.length + 1)
          ((valAt (max A.length B.length + 1) A +
            valAt (max A.length B.length + 1) B) / 2)
        intro hc
        rw [hc] at this
        simp at this
    · -- the values differ by at least two: the midpoint already separates
      have hgap : valAt (max A.length B.length) A + 2 ≤
          valAt (max A.length B.length) B := by omega
      have hvB : valAt (max A.length B.length) B < 36 ^ (max A.length B.length) :=
        valAt_lt hB hnB
      have hvlt : (valAt (max A.length B.length) A +
          valAt (max A.length B.length) B) / 2 < 36 ^ (max A.length B.length) := by
        omega
      have hvval : val (toDigits (max A.length B.length)
          ((valAt (max A.length B.length) A + valAt (max A.length B.length) B) / 2)) =
          (valAt (max A.length B.length) A + valAt (max A.length B.length) B) / 2 :=
        val_toDigits hvlt
      refine ⟨_, betweenDigits_eq_gapBig hlt h0 h1, ?_, ?_, toDigits_valid _ _, ?_⟩
      · refine lexLtB_of_val_lower hA (toDigits_valid _ _) hnA
          (toDigits_length _ _) ?_
        rw [hvval]
        omega
      · refine lexLtB_of_val_upper (toDigits_valid _ _) hB
          (toDigits_length _ _) hnB ?_
        rw [hvval]
        omega
      · have := toDigits_length (max A.length B.length)
          ((valAt (max A.length B.length) A + valAt (max A.length B.length) B) / 2)
        intro hc
        rw [hc] at this
        simp at this
        omega

/-- When `B` is not a zero-digit extension of `A`, the midpoint is at least
as long as `B` — so `B` is never a zero-digit extension of the result
either, which is what keeps repeated insertion below `B` alive forever. -/
theorem betweenDigits_length {A B M : List Nat} (hA : Valid36 A) (hB : Valid36 B)
    (hlt : lexLtB A B = true)
    (hzx : ∀ k, B ≠ A ++ List.replicate k 0)
    (hM : betweenDigits A B = some M) : B.length ≤ M.length := by
  by_cases h0 : valAt (max A.length B.length) B = valAt (max A.length B.length) A
  · exfalso
    obtain ⟨hlen, hBeq⟩ := zeroext_of_val_eq hA hB hlt h0.symm
    exact hzx _ hBeq
  · by_cases h1 : valAt (max A.length B.length) B = valAt (max A.length B.length) A + 1
    · rw [betweenDigits_eq_gapOne hlt h0 h1] at hM
      obtain rfl : M = _ := (Option.some_injective _ hM).symm
      rw [toDigits_length]
      have := le_max_right A.length B.length
      omega
    · rw [betweenDigits_eq_gapBig hlt h0 h1] at hM
      obtain rfl : M = _ := (Option.some_injective _ hM).symm
      rw [toDigits_length]
      exact le_max_right _ _

/-! ## Rank-level correctness of `between`, `genNext`, `genPrev` -/

theorem rankLtB_iff {r s : LexoRank} :
    rankLtB r s = true ↔
      r.bucket < s.bucket ∨ (r.bucket = s.bucket ∧ lexLtB r.digits s.digits = true) := by
  simp [rankLtB]

/-- `genNext` output sorts strictly after its input. -/
theorem genNext_gt (r : LexoRank) : rankLtB r (genNext r) = true := by
  rw [rankLtB_iff]
  exact Or.inr ⟨rfl, lexLtB_append_cons r.digits 0 []⟩

theorem genNext_valid {r : LexoRank} (h : validRank r) : validRank (genNext r) := by
  obtain ⟨h1, h2, h3⟩ := h
  exact ⟨h1, by simp [genNext], Valid36_append h3 (by intro d hd; simp at hd; omega)⟩

/-- `genPrev` succeeds on every valid rank except the bucket minimum (the
one-digit mantissa `0`), and its output sorts strictly before its input. -/
theorem genPrev_lt {r : LexoRank} (hv : validRank r) (hmin : r.digits ≠ [0]) :
    ∃ m, genPrev r = some m ∧ rankLtB m r = true ∧ validRank m := by
  obtain ⟨hb, hne, h36⟩ := hv
  have hlen : 1 ≤ r.digits.length := List.length_pos.2 hne
  unfold genPrev
  by_cases h0 : val r.digits = 0
  · have hlen2 : 2 ≤ r.digits.length := by
      rcases hd : r.digits with _ | ⟨d, ds⟩
      · exact absurd hd hne
      · rcases ds with _ | ⟨e, es⟩
        · exfalso
          apply hmin
          rw [hd]
          rw [hd] at h0
          simp [val] at h0
          rw [h0]
        · simp [hd]
    rw [if_pos h0, if_pos hlen2]
    refine ⟨_, rfl, ?_, ?_⟩
    · rw [rankLtB_iff]
      refine Or.inr ⟨rfl, ?_⟩
      -- digits are all zero: `replicate (n-1) 0 <lex digits = replicate n 0`
      obtain ⟨m, hm⟩ : ∃ m, r.digits.length = m + 1 := ⟨r.digits.length - 1, by omega⟩
      have hdig : r.digits = List.replicate (m + 1) 0 := by
        refine eq_of_val_eq h36 (Valid36_replicate_zero _) (by simp [hm]) ?_
        rw [h0, val_replicate_zero]
      rw [hdig]
      simp only [List.length_replicate, Nat.add_sub_cancel]
      -- replicate m 0 <lex replicate (m+1) 0
      have hrep : List.replicate (m + 1) 0 = List.replicate m 0 ++ [0] := by
        rw [← List.replicate_succ']
      rw [hrep]
      exact lexLtB_append_cons _ 0 []
    · refine ⟨hb, ?_, Valid36_replicate_zero _⟩
      simp only [ne_eq, List.replicate_eq_nil_iff]
      omega
  · rw [if_neg h0]
    refine ⟨_, rfl, ?_, ?_⟩
    · rw [rankLtB_iff]
      refine Or.inr ⟨rfl, ?_⟩
      -- `toDigits n (v-1) ++ [35] <lex digits`: strict at equal length prefix
      have hv1 : val r.digits - 1 < 36 ^ r.digits.length := by
        have := val_lt h36
        omega
      have hstrict : lexLtB (toDigits r.digits.length (val r.digits - 1)) r.digits = true := by
        refine (lexLtB_iff_val_lt (toDigits_valid _ _) h36 (toDigits_length _ _)).2 ?_
        rw [val_toDigits hv1]
        omega
      exact lexLtB_append_strict (toDigits_length _ _) hstrict [35]
    · refine ⟨hb, by simp, Valid36_append (toDigits_valid _ _) ?_⟩
      intro d hd
      simp at hd
      omega

/-- Rank-level soundness of `between`: for valid ranks with
`after <lex before`, except in the single empty-gap case (`before` is
`after` with one `0` digit appended in the same bucket), `between` returns a
valid rank strictly between the two. -/
theorem between_sound {rb ra : LexoRank} (hb : validRank rb) (ha : validRank ra)
    (hlt : rankLtB ra rb = true)
    (hadj : ¬ (rb.bucket = ra.bucket ∧ rb.digits = ra.digits ++ [0])) :
    ∃ m, between rb ra = some m ∧ rankLtB ra m = true ∧ rankLtB m rb = true ∧
      validRank m := by
  unfold between
  rcases rankLtB_iff.1 hlt with hbk | ⟨hbk, hdig⟩
  · rw [if_pos hbk]
    refine ⟨_, rfl, ?_, ?_, ?_⟩
    · rw [rankLtB_iff]
      exact Or.inr ⟨rfl, lexLtB_append_cons ra.digits 0 []⟩
    · rw [rankLtB_iff]
      exact Or.inl hbk
    · exact ⟨ha.1, by simp, Valid36_append ha.2.2 (by intro d hd; simp at hd; omega)⟩
  · rw [if_neg (by omega), if_pos (by simpa using hbk)]
    have hadj' : rb.digits ≠ ra.digits ++ [0] := fun hc => hadj ⟨hbk.symm, hc⟩
    obtain ⟨M, hM, hAM, hMB, hMv, hMne⟩ :=
      betweenDigits_sound ha.2.2 hb.2.2 ha.2.1 hdig hadj'
    refine ⟨⟨ra.bucket, M⟩, by rw [hM]; rfl, ?_, ?_, ?_⟩
    · rw [rankLtB_iff]
      exact Or.inr ⟨rfl, hAM⟩
    · rw [rankLtB_iff]
      exact Or.inr ⟨hbk, hMB⟩
    · exact ⟨ha.1, hMne, hMv⟩

/-! ## Byte-wise string comparison agrees with the rank order -/

theorem charLex_cons_iff {x y : Char} {xs ys : List Char} :
    List.Lex (· < ·) (x :: xs) (y :: ys) ↔
      x < y ∨ (x = y ∧ List.Lex (· < ·) xs ys) := by
  constructor
  · intro h
    cases h with
    | cons h => exact Or.inr ⟨rfl, h⟩
    | rel h => exact Or.inl h
  · rintro (h | ⟨rfl, h⟩)
    · exact List.Lex.rel h
    · exact List.Lex.cons h

theorem charLex_map_iff {A B : List Nat} (hA : Valid36 A) (hB : Valid36 B) :
    List.Lex (· < ·) (A.map digitChar36) (B.map digitChar36) ↔ lexLtB A B = true := by
  induction A generalizing B with
  | nil =>
    cases B with
    | nil =>
      exact iff_of_false (List.Lex.not_nil_right _ _) (by decide)
    | cons b bs =>
      exact iff_of_true List.Lex.nil rfl
  | cons a as ih =>
    cases B with
    | nil =>
      refine iff_of_false (List.Lex.not_nil_right _ _) ?_
      rw [lexLtB_nil_right]
      exact Bool.false_ne_true
    | cons b bs =>
      obtain ⟨ha, has⟩ := Valid36_cons hA
      obtain ⟨hb, hbs⟩ := Valid36_cons hB
      simp only [List.map_cons]
      rw [charLex_cons_iff, lexLtB_cons_iff, ih has hbs,
        digitChar36_lt_iff a ha b hb, digitChar36_eq_iff a ha b hb]

theorem toStr_data (r : LexoRank) :
    (toStr r).data = digitChar36 r.bucket :: '|' :: r.digits.map digitChar36 := rfl

theorem toStr_lt_iff {r s : LexoRank} (hr : validRank r) (hs : validRank s) :
    toStr r < toStr s ↔ rankLtB r s = true := by
  rw [String.lt_iff_toList_lt]
  show List.Lex (· < ·) (toStr r).data (toStr s).data ↔ _
  rw [toStr_data, toStr_data, charLex_cons_iff, charLex_cons_iff]
  have hrb : r.bucket < 36 := by have := hr.1; omega
  have hsb : s.bucket < 36 := by have := hs.1; omega
  rw [digitChar36_lt_iff _ hrb _ hsb, digitChar36_eq_iff _ hrb _ hsb,
    charLex_map_iff hr.2.2 hs.2.2, rankLtB_iff]
  simp [lt_irrefl]

/-! ## `parse` and `toStr` are inverse on valid ranks -/

theorem bucketChar_beq : ∀ b < 3,
    (digitChar36 b == '0' || digitChar36 b == '1' || digitChar36 b == '2') = true := by
  decide

theorem parse_toStr {r : LexoRank} (h : validRank r) : parse (toStr r) = some r := by
  obtain ⟨b, ds⟩ := r
  obtain ⟨hb, hne, h36⟩ := h
  have hstep : parse (toStr ⟨b, ds⟩) = parseCore (digitChar36 b) '|' (ds.map digitChar36) := rfl
  rw [hstep]
  unfold parseCore
  have hcond : ((digitChar36 b == '0' || digitChar36 b == '1' ||
      digitChar36 b == '2') && ('|' : Char) == '|' &&
      !(ds.map digitChar36).isEmpty &&
      (ds.map digitChar36).all isDigit36) = true := by
    rw [Bool.and_eq_true, Bool.and_eq_true, Bool.and_eq_true]
    refine ⟨⟨⟨bucketChar_beq _ hb, by decide⟩, ?_⟩, ?_⟩
    · cases hd : ds with
      | nil => exact absurd hd hne
      | cons d dtl => simp
    · rw [List.all_eq_true]
      intro c hc
      obtain ⟨d, hd, rfl⟩ := List.mem_map.1 hc
      exact isDigit36_digitChar36 d (h36 d hd)
  rw [if_pos hcond]
  have hbv : digitVal (digitChar36 b) = b :=
    digitVal_digitChar36 _ (by have hb2 : b < 3 := hb; omega)
  have hdg : (ds.map digitChar36).map digitVal = ds := by
    rw [List.map_map]
    conv_rhs => rw [← List.map_id ds]
    refine List.map_congr_left ?_
    intro d hd
    exact digitVal_digitChar36 d (h36 d hd)
  rw [hbv, hdg]

/-- Whatever `parse` accepts is a valid rank whose canonical string form is
the accepted string itself: hand-seeded ranks and generated ranks live in
one and the same space. -/
theorem parse_some {s : String} {r : LexoRank} (h : parse s = some r) :
    validRank r ∧ toStr r = s := by
  unfold parse at h
  split at h
  case h_2 => cases h
  case h_1 c p rest heq =>
    unfold parseCore at h
    by_cases hcond : ((c == '0' || c == '1' || c == '2') && p == '|' &&
        !rest.isEmpty && rest.all isDigit36) = true
    · rw [if_pos hcond] at h
      obtain rfl : r = ⟨digitVal c, rest.map digitVal⟩ := (Option.some_injective _ h).symm
      rw [Bool.and_eq_true, Bool.and_eq_true, Bool.and_eq_true] at hcond
      obtain ⟨⟨⟨hc, hp⟩, hrne⟩, hall⟩ := hcond
      have hp' : p = '|' := by simpa using hp
      have hall' : ∀ x ∈ rest, isDigit36 x = true := List.all_eq_true.1 hall
      have hc' : (c = '0' ∨ c = '1') ∨ c = '2' := by simpa using hc
      have hcd : isDigit36 c = true := by
        rcases hc' with (rfl | rfl) | rfl <;> decide
      have hcb : digitVal c < 3 := by
        rcases hc' with (rfl | rfl) | rfl <;> decide
      refine ⟨⟨hcb, ?_, ?_⟩, ?_⟩
      · cases hrest : rest with
        | nil => rw [hrest] at hrne; cases hrne
        | cons x xs => simp
      · intro d hd
        obtain ⟨x, hx, rfl⟩ := List.mem_map.1 hd
        exact digitVal_lt_of_isDigit36 (hall' x hx)
      · -- the canonical string form reproduces `s`
        have hdata : (toStr ⟨digitVal c, rest.map digitVal⟩).data = s.data := by
          rw [toStr_data, heq]
          show digitChar36 (digitVal c) :: '|' :: (rest.map digitVal).map digitChar36 =
            c :: p :: rest
          rw [digitChar36_digitVal hcd, hp']
          congr 1
          congr 1
          rw [List.map_map]
          conv_rhs => rw [← List.map_id rest]
          refine List.map_congr_left ?_
          intro x hx
          exact digitChar36_digitVal (hall' x hx)
        exact String.ext hdata
    · rw [if_neg hcond] at h
      cases h

/-- `parse` rejects the empty string (its character list has no two heads). -/
theorem parse_empty : parse "" = none := rfl

/-! ## Evaluation lemmas for `parseNeighbor` and `calculateNewRank` -/

theorem parseNeighbor_none : parseNeighbor none = Except.ok none := rfl

theorem parseNeighbor_parse {s : String} {r : LexoRank} (h : parse s = some r) :
    parseNeighbor (some s) = Except.ok (some r) := by
  simp only [parseNeighbor]
  rw [if_neg (fun hc => by rw [hc, parse_empty] at h; cases h), h]

theorem parseNeighbor_bad {s : String} (hne : s ≠ "") (h : parse s = none) :
    parseNeighbor (some s) = Except.error "Invalid rank string" := by
  simp only [parseNeighbor]
  rw [if_neg hne, h]

theorem parseNeighbor_error {x : Option String} {e : String}
    (h : parseNeighbor x = Except.error e) : e = "Invalid rank string" := by
  rcases x with _ | s
  · cases h
  · simp only [parseNeighbor] at h
    by_cases hs : s = ""
    · rw [if_pos hs] at h; cases h
    · rw [if_neg hs] at h
      cases hp : parse s with
      | some r => rw [hp] at h; cases h
      | none =>
          rw [hp] at h
          simp only [Except.error.injEq] at h
          exact h.symm

theorem parseNeighbor_ok_some {x : Option String} {r : LexoRank}
    (h : parseNeighbor x = Except.ok (some r)) :
    ∃ s, x = some s ∧ parse s = some r := by
  rcases x with _ | s
  · cases h
  · simp only [parseNeighbor] at h
    by_cases hs : s = ""
    · rw [if_pos hs] at h; cases h
    · rw [if_neg hs] at h
      cases hp : parse s with
      | some r2 =>
          rw [hp] at h
          simp only [Except.ok.injEq, Option.some.injEq] at h
          subst h
          exact ⟨s, rfl, hp⟩
      | none => rw [hp] at h; cases h

theorem calculateNewRank_none_none : calculateNewRank none none = Except.ok none := rfl

theorem calculateNewRank_both {b a : String} {rb ra : LexoRank}
    (hb : parse b = some rb) (ha : parse a = some ra) :
    calculateNewRank (some b) (some a) =
      match between rb ra with
      | some m => Except.ok (some m)
      | none => Except.error "Unable to rank between" := by
  unfold calculateNewRank
  rw [parseNeighbor_parse hb, parseNeighbor_parse ha]

theorem calculateNewRank_before {b : String} {rb : LexoRank}
    (hb : parse b = some rb) :
    calculateNewRank (some b) none =
      match genPrev rb with
      | some m => Except.ok (some m)
      | none => Except.error "Unable to generate previous rank" := by
  unfold calculateNewRank
  rw [parseNeighbor_parse hb, parseNeighbor_none]

theorem calculateNewRank_after {a : String} {ra : LexoRank}
    (ha : parse a = some ra) :
    calculateNewRank none (some a) = Except.ok (some (genNext ra)) := by
  unfold calculateNewRank
  rw [parseNeighbor_none, parseNeighbor_parse ha]

/-! ## Validity of every rank the engine can emit -/

theorem betweenDigits_valid {A B M : List Nat} (hA : Valid36 A) (_hB : Valid36 B)
    (hAne : A ≠ []) (h : betweenDigits A B = some M) : Valid36 M ∧ M ≠ [] := by
  have hA1 : 1 ≤ A.length := List.length_pos.2 hAne
  unfold betweenDigits at h
  by_cases hlt : lexLtB A B = true
  · rw [if_pos hlt] at h
    simp only at h
    by_cases h0 : valAt (max A.length B.length) B = valAt (max A.length B.length) A
    · rw [if_pos h0] at h
      by_cases h1 : B.length = A.length + 1
      · rw [if_pos h1] at h; cases h
      · rw [if_neg h1] at h
        obtain rfl : M = A ++ [0] := (Option.some_injective _ h).symm
        exact ⟨Valid36_append hA (by intro d hd; simp at hd; omega), by simp⟩
    · rw [if_neg h0] at h
      by_cases h1 : valAt (max A.length B.length) B = valAt (max A.length B.length) A + 1
      · rw [if_pos h1] at h
        obtain rfl : M = _ := (Option.some_injective _ h).symm
        refine ⟨toDigits_valid _ _, ?_⟩
        intro hc
        have := toDigits_length (max A.length B.length + 1)
          ((valAt (max A.length B.length + 1) A + valAt (max A.length B.length + 1) B) / 2)
        rw [hc] at this
        simp at this
      · rw [if_neg h1] at h
        obtain rfl : M = _ := (Option.some_injective _ h).symm
        refine ⟨toDigits_valid _ _, ?_⟩
        intro hc
        have := toDigits_length (max A.length B.length)
          ((valAt (max A.length B.length) A + valAt (max A.length B.length) B) / 2)
        rw [hc] at this
        simp at this
        omega
  · rw [if_neg hlt] at h; cases h

theorem between_valid {rb ra m : LexoRank} (hvb : validRank rb) (hva : validRank ra)
    (h : between rb ra = some m) : validRank m := by
  unfold between at h
  by_cases hbk : ra.bucket < rb.bucket
  · rw [if_pos hbk] at h
    obtain rfl : m = _ := (Option.some_injective _ h).symm
    exact ⟨hva.1, by simp, Valid36_append hva.2.2 (by intro d hd; simp at hd; omega)⟩
  · rw [if_neg hbk] at h
    by_cases hbe : (ra.bucket == rb.bucket) = true
    · rw [if_pos hbe] at h
      obtain ⟨M, hM, rfl⟩ := Option.map_eq_some'.1 h
      obtain ⟨hMv, hMne⟩ := betweenDigits_valid hva.2.2 hvb.2.2 hva.2.1 hM
      exact ⟨hva.1, hMne, hMv⟩
    · rw [if_neg hbe] at h; cases h

theorem genPrev_valid {r m : LexoRank} (hv : validRank r)
    (h : genPrev r = some m) : validRank m := by
  unfold genPrev at h
  by_cases h0 : val r.digits = 0
  · rw [if_pos h0] at h
    by_cases h2 : 2 ≤ r.digits.length
    · rw [if_pos h2] at h
      obtain rfl : m = _ := (Option.some_injective _ h).symm
      refine ⟨hv.1, ?_, Valid36_replicate_zero _⟩
      simp only [ne_eq, List.replicate_eq_nil_iff]
      omega
    · rw [if_neg h2] at h; cases h
  · rw [if_neg h0] at h
    obtain rfl : m = _ := (Option.some_injective _ h).symm
    refine ⟨hv.1, by simp, Valid36_append (toDigits_valid _ _) ?_⟩
    intro d hd
    simp at hd
    omega

/-- Contradictory bounds: when `after` does not sort strictly before
`before`, `between` signals failure. -/
theorem between_none_of_not_lt {rb ra : LexoRank} (h : rankLtB ra rb = false) :
    between rb ra = none := by
  have h' := rankLtB_iff.not.1 (by rw [h]; exact Bool.false_ne_true)
  push_neg at h'
  obtain ⟨hle, himp⟩ := h'
  unfold between
  rw [if_neg (by omega)]
  by_cases hbe : (ra.bucket == rb.bucket) = true
  · rw [if_pos hbe]
    have hbeq : ra.bucket = rb.bucket := by simpa using hbe
    have hdig : lexLtB ra.digits rb.digits = false := by
      have h2 := himp hbeq
      rw [Bool.eq_false_iff]
      exact h2
    unfold betweenDigits
    rw [if_neg (by rw [hdig]; exact Bool.false_ne_true)]
    rfl
  · rw [if_neg hbe]

/-! ## The invariant that keeps repeated insertion below a bound alive -/

/-- One `between` step preserves the "not a zero-digit extension" invariant:
starting strictly below `rb` and not a zero-truncation of `rb`'s mantissa,
the step succeeds, moves strictly up, stays strictly below `rb`, and the
result again satisfies the invariant. -/
theorem between_step {rb r : LexoRank} (hvb : validRank rb) (hv : validRank r)
    (hlt : rankLtB r rb = true)
    (hzx : r.bucket = rb.bucket → ∀ k, rb.digits ≠ r.digits ++ List.replicate (k + 1) 0) :
    ∃ m, between rb r = some m ∧ rankLtB r m = true ∧ rankLtB m rb = true ∧
      validRank m ∧
      (m.bucket = rb.bucket → ∀ k, rb.digits ≠ m.digits ++ List.replicate (k + 1) 0) := by
  unfold between
  rcases rankLtB_iff.1 hlt with hbk | ⟨hbk, hdig⟩
  · rw [if_pos hbk]
    refine ⟨_, rfl, ?_, ?_, ?_, ?_⟩
    · exact rankLtB_iff.2 (Or.inr ⟨rfl, lexLtB_append_cons r.digits 0 []⟩)
    · exact rankLtB_iff.2 (Or.inl hbk)
    · exact ⟨hv.1, by simp, Valid36_append hv.2.2 (by intro d hd; simp at hd; omega)⟩
    · intro hc
      exfalso
      simp only at hc
      omega
  · rw [if_neg (by omega), if_pos (by simpa using hbk)]
    have hadj : rb.digits ≠ r.digits ++ [0] := by
      have h0 := hzx hbk 0
      simpa using h0
    obtain ⟨M, hM, hAM, hMB, hMv, hMne⟩ :=
      betweenDigits_sound hv.2.2 hvb.2.2 hv.2.1 hdig hadj
    have hzx' : ∀ k, rb.digits ≠ r.digits ++ List.replicate k 0 := by
      intro k
      cases k with
      | zero =>
          intro hc
          simp only [List.replicate_zero, List.append_nil] at hc
          rw [hc, lexLtB_irrefl] at hdig
          cases hdig
      | succ j => exact hzx hbk j
    have hlen := betweenDigits_length hv.2.2 hvb.2.2 hdig hzx' hM
    refine ⟨⟨r.bucket, M⟩, by rw [hM]; rfl,
      rankLtB_iff.2 (Or.inr ⟨rfl, hAM⟩),
      rankLtB_iff.2 (Or.inr ⟨hbk, hMB⟩),
      ⟨hv.1, hMne, hMv⟩, ?_⟩
    intro _ k hc
    have hlc : rb.digits.length = M.length + (k + 1) := by
      rw [hc]
      simp
    simp only at hlc
    omega

/-! ## The repeated-insertion chain (the §8 loop scenario) -/

/-- One step of the repeated-insertion loop of §8:
`compute(before = b, after = prevResult)` as a string transformer (`none`
when `calculateNewRank` errors or returns no rank). -/
def chainStep (b x : String) : Option String :=
  match calculateNewRank (some b) (some x) with
  | Except.ok (some m) => some (toStr m)
  | _ => none

/-- The loop itself: `chain b a n` is the rank after `n` insertions at the
gap just below `b`, starting from `a`. -/
def chain (b a : String) : Nat → Option String
  | 0 => some a
  | n + 1 => (chain b a n).bind (chainStep b)

theorem chainStep_eq {b x : String} {rb rx m : LexoRank}
    (hb : parse b = some rb) (hx : parse x = some rx)
    (hm : between rb rx = some m) : chainStep b x = some (toStr m) := by
  unfold chainStep
  rw [calculateNewRank_both hb hx, hm]

/-! ## The create path: append after the scope maximum -/

theorem maxRankStr_spec (l : List String) :
    (l = [] ∧ maxRankStr l = none) ∨
    ∃ m, maxRankStr l = some m ∧ m ∈ l ∧ ∀ s ∈ l, s = m ∨ s < m := by
  induction l with
  | nil => exact Or.inl ⟨rfl, rfl⟩
  | cons r rs ih =>
    right
    rcases ih with ⟨rfl, hm⟩ | ⟨m, hm, hmem, hmax⟩
    · refine ⟨r, ?_, List.mem_cons_self r [], ?_⟩
      · unfold maxRankStr
        rw [hm]
      · intro s hs
        rcases List.mem_cons.1 hs with rfl | hs
        · exact Or.inl rfl
        · cases hs
    · by_cases hrm : r < m
      · refine ⟨m, ?_, List.mem_cons_of_mem r hmem, ?_⟩
        · unfold maxRankStr
          rw [hm]
          show some (if r < m then m else r) = some m
          rw [if_pos hrm]
        · intro s hs
          rcases List.mem_cons.1 hs with rfl | hs
          · exact Or.inr hrm
          · exact hmax s hs
      · refine ⟨r, ?_, List.mem_cons_self r rs, ?_⟩
        · unfold maxRankStr
          rw [hm]
          show some (if r < m then m else r) = some r
          rw [if_neg hrm]
        · intro s hs
          rcases List.mem_cons.1 hs with rfl | hs
          · exact Or.inl rfl
          · rcases hmax s hs with rfl | hsm
            · rcases lt_or_eq_of_le (not_lt.1 hrm) with h2 | h2
              · exact Or.inr h2
              · exact Or.inl h2
            · rcases lt_or_eq_of_le (not_lt.1 hrm) with h2 | h2
              · exact Or.inr (lt_trans hsm h2)
              · exact Or.inr (h2 ▸ hsm)

theorem middle_valid : validRank middle := by decide

/-- The shared create logic appends strictly after every rank of the scope,
and anchors an empty scope at the canonical middle. -/
theorem newRankForCreate_spec (l : List String)
    (hvalid : ∀ s ∈ l, ∃ r, parse s = some r) :
    ∃ m : LexoRank, newRankForCreate (maxRankStr l) = Except.ok m ∧ validRank m ∧
      (∀ s ∈ l, s < toStr m) ∧ (l = [] → m = middle) := by
  rcases maxRankStr_spec l with ⟨rfl, hm⟩ | ⟨mx, hm, hmem, hmax⟩
  · refine ⟨middle, ?_, middle_valid, ?_, fun _ => rfl⟩
    · rw [hm]; rfl
    · intro s hs; cases hs
  · obtain ⟨rm, hrm⟩ := hvalid mx hmem
    obtain ⟨hvrm, hsrm⟩ := parse_some hrm
    refine ⟨genNext rm, ?_, genNext_valid hvrm, ?_, ?_⟩
    · rw [hm]
      show (match parse mx with
        | some r => Except.ok (genNext r)
        | none => Except.error "Invalid rank string") = Except.ok (genNext rm)
      rw [hrm]
    · intro s hs
      have hlt : mx < toStr (genNext rm) := by
        rw [← hsrm]
        exact (toStr_lt_iff hvrm (genNext_valid hvrm)).2 (genNext_gt rm)
      rcases hmax s hs with rfl | hsm
      · exact hlt
      · exact lt_trans hsm hlt
    · intro hc
      rw [hc] at hmem
      cases hmem

/-! ## Bridging concrete rank strings to the byte-wise string order -/

theorem strLt_of_parse {a b : String} {ra rb : LexoRank}
    (ha : parse a = some ra) (hb : parse b = some rb)
    (h : rankLtB ra rb = true) : a < b := by
  obtain ⟨hva, hsa⟩ := parse_some ha
  obtain ⟨hvb, hsb⟩ := parse_some hb
  rw [← hsa, ← hsb]
  exact (toStr_lt_iff hva hvb).2 h

theorem rankLtB_false_of_not_strLt {a b : String} {ra rb : LexoRank}
    (ha : parse a = some ra) (hb : parse b = some rb) (h : ¬ a < b) :
    rankLtB ra rb = false := by
  obtain ⟨hva, hsa⟩ := parse_some ha
  obtain ⟨hvb, hsb⟩ := parse_some hb
  rw [Bool.eq_false_iff]
  intro hc
  apply h
  rw [← hsa, ← hsb]
  exact (toStr_lt_iff hva hvb).2 hc

/-- No digit list fits strictly between the mantissa `h` and its immediate
byte-wise successor `h0`: the rank space really is empty there, so failing
on that pair is forced, not an implementation choice. -/
theorem no_digits_between (ds : List Nat) :
    ¬ (lexLtB [17] ds = true ∧ lexLtB ds [17, 0] = true) := by
  rintro ⟨h1, h2⟩
  cases ds with
  | nil => cases h1
  | cons d tl =>
    rw [lexLtB_cons_iff] at h1 h2
    rcases h1 with h1 | ⟨h1, h1'⟩
    · rcases h2 with h2 | ⟨h2, _⟩ <;> omega
    · rcases h2 with h2 | ⟨_, h2⟩
      · omega
      · cases tl with
        | nil => cases h1'
        | cons t ts =>
          rw [lexLtB_cons_iff] at h2
          rcases h2 with h2 | ⟨_, h2⟩
          · omega
          · rw [lexLtB_nil_right] at h2; cases h2

/-- Case analysis of a successful `calculateNewRank` call: the returned rank
comes from `between`, `genPrev` or `genNext` of successfully parsed
neighbours. -/
theorem calculateNewRank_ok_some {b a : Option String} {m : LexoRank}
    (h : calculateNewRank b a = Except.ok (some m)) :
    (∃ rb ra, parseNeighbor b = Except.ok (some rb) ∧
        parseNeighbor a = Except.ok (some ra) ∧ between rb ra = some m) ∨
    (∃ rb, parseNeighbor b = Except.ok (some rb) ∧
        parseNeighbor a = Except.ok none ∧ genPrev rb = some m) ∨
    (∃ ra, parseNeighbor b = Except.ok none ∧
        parseNeighbor a = Except.ok (some ra) ∧ m = genNext ra) := by
  unfold calculateNewRank at h
  cases hb : parseNeighbor b with
  | error e => rw [hb] at h; cases h
  | ok vb =>
    rw [hb] at h
    cases ha : parseNeighbor a with
    | error e => rw [ha] at h; cases h
    | ok va =>
      rw [ha] at h
      cases vb with
      | some rb =>
        cases va with
        | some ra =>
          dsimp only at h
          cases hbet : between rb ra with
          | some m2 =>
            rw [hbet] at h
            obtain rfl : m2 = m := by
              have h2 : Except.ok (some m2) =
                  (Except.ok (some m) : Except String (Option LexoRank)) := h
              simpa using h2
            exact Or.inl ⟨rb, ra, rfl, rfl, hbet⟩
          | none => rw [hbet] at h; cases h
        | none =>
          dsimp only at h
          cases hgp : genPrev rb with
          | some m2 =>
            rw [hgp] at h
            obtain rfl : m2 = m := by
              have h2 : Except.ok (some m2) =
                  (Except.ok (some m) : Except String (Option LexoRank)) := h
              simpa using h2
            exact Or.inr (Or.inl ⟨rb, rfl, rfl, hgp⟩)
          | none => rw [hgp] at h; cases h
      | none =>
        cases va with
        | some ra =>
          dsimp only at h
          have h2 : Except.ok (some (genNext ra)) =
              (Except.ok (some m) : Except String (Option LexoRank)) := h
          have h3 : genNext ra = m := by simpa using h2
          exact Or.inr (Or.inr ⟨ra, rfl, rfl, h3.symm⟩)
        | none =>
          dsimp only at h
          have h2 : Except.ok (none : Option LexoRank) =
              (Except.ok (some m) : Except String (Option LexoRank)) := h
          simp at h2

/-! ## Claim C1: `between` with both neighbours supplied -/

/-- C1 (amended): for all valid rank strings `a < b` byte-wise, except in
the single empty-gap case where `b` is `a` with one extra `0` digit (then no
rank string exists strictly between the two at all), `calculateNewRank`
with `beforeRank = b` and `afterRank = a` returns a rank `m` with
`a < m < b` byte-wise. -/
theorem C1_between_strict (a b : String) (ra rb : LexoRank)
    (ha : parse a = some ra) (hb : parse b = some rb) (hab : a < b)
    (hadj : ¬ (rb.bucket = ra.bucket ∧ rb.digits = ra.digits ++ [0])) :
    ∃ m : LexoRank, calculateNewRank (some b) (some a) = Except.ok (some m) ∧
      a < toStr m ∧ toStr m < b := by
  obtain ⟨hva, hsa⟩ := parse_some ha
  obtain ⟨hvb, hsb⟩ := parse_some hb
  have hlt : rankLtB ra rb = true := by
    rw [← hsa, ← hsb] at hab
    exact (toStr_lt_iff hva hvb).1 hab
  obtain ⟨m, hm, h1, h2, hvm⟩ := between_sound hvb hva hlt hadj
  refine ⟨m, ?_, ?_, ?_⟩
  · rw [calculateNewRank_both hb ha, hm]
  · rw [← hsa]
    exact (toStr_lt_iff hva hvm).2 h1
  · rw [← hsb]
    exact (toStr_lt_iff hvm hvb).2 h2

/-- C1 witness: the §8 scenario pair `0|hzzzzz < 0|i00001`. -/
theorem C1_witness :
    ∃ m : LexoRank,
      calculateNewRank (some "0|i00001") (some "0|hzzzzz") = Except.ok (some m) ∧
      "0|hzzzzz" < toStr m ∧ toStr m < "0|i00001" :=
  C1_between_strict "0|hzzzzz" "0|i00001"
    ⟨0, [17, 35, 35, 35, 35, 35]⟩ ⟨0, [18, 0, 0, 0, 0, 1]⟩
    (by decide) (by decide)
    (@strLt_of_parse "0|hzzzzz" "0|i00001" ⟨0, [17, 35, 35, 35, 35, 35]⟩
      ⟨0, [18, 0, 0, 0, 0, 1]⟩ (by decide) (by decide) (by decide))
    (by decide)

/-- C1 counterexample: `a = "0|h"` and `b = "0|h0"` are valid ranks with
`a < b` byte-wise, yet `calculateNewRank(beforeRank = b, afterRank = a)`
signals an error instead of returning a rank strictly between them (by
`no_digits_between`, no such rank exists). -/
theorem C1_counterexample :
    parse "0|h" = some ⟨0, [17]⟩ ∧ parse "0|h0" = some ⟨0, [17, 0]⟩ ∧
    ("0|h" : String) < "0|h0" ∧
    calculateNewRank (some "0|h0") (some "0|h") =
      Except.error "Unable to rank between" :=
  ⟨by decide, by decide,
   @strLt_of_parse "0|h" "0|h0" ⟨0, [17]⟩ ⟨0, [17, 0]⟩
     (by decide) (by decide) (by decide), rfl⟩

/-! ## Claim C2: repeated insertion at the same boundary -/

/-- C2 (amended): iterating `compute(before = b, after = prevResult)` from
any valid pair `a < b` — except when `b` is `a` with one or more `0` digits
appended, where the gap below `b` contains only finitely many ranks — never
errors, at any number of steps: every step yields a rank, consecutive
results strictly increase, all stay strictly below `b`, and the whole chain
is strictly monotone (hence pairwise distinct). -/
theorem C2_repeated_insertion (a b : String) (ra rb : LexoRank)
    (ha : parse a = some ra) (hb : parse b = some rb) (hab : a < b)
    (hzx : ra.bucket = rb.bucket →
      ∀ k, rb.digits ≠ ra.digits ++ List.replicate (k + 1) 0) :
    (∀ n, ∃ s t, chain b a n = some s ∧ chain b a (n + 1) = some t ∧
        s < t ∧ s < b ∧ t < b) ∧
    (∀ j n, j < n → ∃ s t, chain b a j = some s ∧ chain b a n = some t ∧ s < t) := by
  obtain ⟨hva, hsa⟩ := parse_some ha
  obtain ⟨hvb, hsb⟩ := parse_some hb
  have hlt0 : rankLtB ra rb = true := by
    have hab2 := hab
    rw [← hsa, ← hsb] at hab2
    exact (toStr_lt_iff hva hvb).1 hab2
  have key : ∀ n, ∃ r : LexoRank, chain b a n = some (toStr r) ∧ validRank r ∧
      rankLtB r rb = true ∧
      (r.bucket = rb.bucket → ∀ k, rb.digits ≠ r.digits ++ List.replicate (k + 1) 0) := by
    intro n
    induction n with
    | zero =>
      refine ⟨ra, ?_, hva, hlt0, hzx⟩
      show some a = some (toStr ra)
      rw [hsa]
    | succ n ih =>
      obtain ⟨r, hcn, hvr, hlr, hzr⟩ := ih
      obtain ⟨m, hm, hrm, hmb, hvm, hzm⟩ := between_step hvb hvr hlr hzr
      refine ⟨m, ?_, hvm, hmb, hzm⟩
      show (chain b a n).bind (chainStep b) = some (toStr m)
      rw [hcn]
      show chainStep b (toStr r) = some (toStr m)
      exact chainStep_eq hb (parse_toStr hvr) hm
  have cons_part : ∀ n, ∃ s t, chain b a n = some s ∧ chain b a (n + 1) = some t ∧
      s < t ∧ s < b ∧ t < b := by
    intro n
    obtain ⟨r, hcn, hvr, hlr, hzr⟩ := key n
    obtain ⟨m, hm, hrm, hmb, hvm, _⟩ := between_step hvb hvr hlr hzr
    have hcn1 : chain b a (n + 1) = some (toStr m) := by
      show (chain b a n).bind (chainStep b) = some (toStr m)
      rw [hcn]
      show chainStep b (toStr r) = some (toStr m)
      exact chainStep_eq hb (parse_toStr hvr) hm
    refine ⟨toStr r, toStr m, hcn, hcn1,
      (toStr_lt_iff hvr hvm).2 hrm, ?_, ?_⟩
    · rw [← hsb]
      exact (toStr_lt_iff hvr hvb).2 hlr
    · rw [← hsb]
      exact (toStr_lt_iff hvm hvb).2 hmb
  refine ⟨cons_part, ?_⟩
  intro j n hjn
  induction n with
  | zero => omega
  | succ n ihn =>
    rcases Nat.lt_or_ge j n with hj | hj
    · obtain ⟨s, t, hs, ht, hst⟩ := ihn hj
      obtain ⟨s2, t2, hs2, ht2, hst2, _, _⟩ := cons_part n
      have heq : t = s2 := by
        rw [ht] at hs2
        exact (Option.some_injective _ hs2.symm).symm
      exact ⟨s, t2, hs, ht2, lt_trans hst (heq ▸ hst2)⟩
    · have hj2 : j = n := by omega
      subst hj2
      obtain ⟨s, t, hs, ht, hst, _, _⟩ := cons_part j
      exact ⟨s, t, hs, ht, hst⟩

/-- C2 witness: the §8 scenario pair, which the spec singles out as needing
precision growth, sustains the insertion loop (instantiated via the amended
theorem; the consecutive-step part at every `n` covers 100 insertions). -/
theorem C2_witness :
    (∀ n, ∃ s t, chain "0|i00001" "0|hzzzzz" n = some s ∧
        chain "0|i00001" "0|hzzzzz" (n + 1) = some t ∧
        s < t ∧ s < "0|i00001" ∧ t < "0|i00001") ∧
    (∀ j n, j < n → ∃ s t, chain "0|i00001" "0|hzzzzz" j = some s ∧
        chain "0|i00001" "0|hzzzzz" n = some t ∧ s < t) :=
  C2_repeated_insertion "0|hzzzzz" "0|i00001"
    ⟨0, [17, 35, 35, 35, 35, 35]⟩ ⟨0, [18, 0, 0, 0, 0, 1]⟩
    (by decide) (by decide)
    (@strLt_of_parse "0|hzzzzz" "0|i00001" ⟨0, [17, 35, 35, 35, 35, 35]⟩
      ⟨0, [18, 0, 0, 0, 0, 1]⟩ (by decide) (by decide) (by decide))
    (by
      intro _ k hc
      have hlen := congrArg List.length hc
      simp at hlen)

/-- C2 counterexample: from `a = "0|h"`, `b = "0|h00"` (valid, `a < b`) the
loop errors at the second insertion — far short of 100 — because after
`"0|h0"` the gap below `"0|h00"` is empty. -/
theorem C2_counterexample :
    parse "0|h" = some ⟨0, [17]⟩ ∧ parse "0|h00" = some ⟨0, [17, 0, 0]⟩ ∧
    ("0|h" : String) < "0|h00" ∧
    chain "0|h00" "0|h" 1 = some "0|h0" ∧
    chain "0|h00" "0|h" 2 = none :=
  ⟨by decide, by decide,
   @strLt_of_parse "0|h" "0|h00" ⟨0, [17]⟩ ⟨0, [17, 0, 0]⟩
     (by decide) (by decide) (by decide), rfl, rfl⟩

/-! ## Claim C3: both neighbours absent -/

/-- C3 counterexample: with both inputs absent `calculateNewRank` returns
`undefined` (no rank), not the canonical middle rank. -/
theorem C3_counterexample :
    calculateNewRank none none = Except.ok none ∧
    (Except.ok (none : Option LexoRank) : Except String (Option LexoRank)) ≠
      Except.ok (some middle) :=
  ⟨rfl, fun hc => Option.noConfusion (Except.ok.inj hc)⟩

/-- C3 (amended): with both inputs absent `calculateNewRank` returns the
fixed outcome `undefined` — deterministically, the same value for every such
call — and the reorder handlers answer 400 `Invalid reorder request` without
touching the table.  (The canonical middle rank is produced by the create
handlers on an empty scope, not by `calculateNewRank`.) -/
theorem C3_both_absent :
    calculateNewRank none none = Except.ok none ∧
    (∀ (db : List Subject) (id : Nat),
      reorderSubjects db id none none = (ReorderOutcome.badRequest, db)) ∧
    (∀ (db : List Topic) (id : Nat),
      reorderTopics db id none none = (ReorderOutcome.badRequest, db)) :=
  ⟨rfl, fun _ _ => rfl, fun _ _ => rfl⟩

/-! ## Claim C4: a single neighbour supplied -/

/-- C4 (amended): with only an `after` rank the result sorts strictly after
it; with only a `before` rank the result sorts strictly before it —
except at the minimum rank of a bucket (mantissa `0`), below which no rank
exists and `genPrev` signals an error. -/
theorem C4_single_neighbor :
    (∀ (a : String) (ra : LexoRank), parse a = some ra →
      ∃ m, calculateNewRank none (some a) = Except.ok (some m) ∧ a < toStr m) ∧
    (∀ (b : String) (rb : LexoRank), parse b = some rb → rb.digits ≠ [0] →
      ∃ m, calculateNewRank (some b) none = Except.ok (some m) ∧ toStr m < b) := by
  constructor
  · intro a ra ha
    obtain ⟨hva, hsa⟩ := parse_some ha
    refine ⟨genNext ra, calculateNewRank_after ha, ?_⟩
    rw [← hsa]
    exact (toStr_lt_iff hva (genNext_valid hva)).2 (genNext_gt ra)
  · intro b rb hb hmin
    obtain ⟨hvb, hsb⟩ := parse_some hb
    obtain ⟨m, hm, hmlt, hvm⟩ := genPrev_lt hvb hmin
    refine ⟨m, ?_, ?_⟩
    · rw [calculateNewRank_before hb, hm]
    · rw [← hsb]
      exact (toStr_lt_iff hvm hvb).2 hmlt

/-- C4 witness: both directions at the canonical middle rank. -/
theorem C4_witness :
    (∃ m, calculateNewRank none (some "0|hzzzzz") = Except.ok (some m) ∧
      "0|hzzzzz" < toStr m) ∧
    (∃ m, calculateNewRank (some "0|hzzzzz") none = Except.ok (some m) ∧
      toStr m < "0|hzzzzz") :=
  ⟨C4_single_neighbor.1 "0|hzzzzz" ⟨0, [17, 35, 35, 35, 35, 35]⟩ (by decide),
   C4_single_neighbor.2 "0|hzzzzz" ⟨0, [17, 35, 35, 35, 35, 35]⟩ (by decide) (by decide)⟩

/-- C4 counterexample: `"0|0"` is a valid rank (the minimum of bucket `0`),
yet `calculateNewRank(beforeRank = "0|0", afterRank = undefined)` errors
instead of returning a smaller rank — none exists. -/
theorem C4_counterexample :
    parse "0|0" = some ⟨0, [0]⟩ ∧
    calculateNewRank (some "0|0") none =
      Except.error "Unable to generate previous rank" :=
  ⟨by decide, rfl⟩

/-! ## Claim C5: invalid neighbour ordering at the reorder endpoint -/

/-- C5 (amended): when both ranks are supplied and `after` does not sort
strictly before `before`, the handler still invokes the engine; the engine
signals the contradictory-bounds error, which escapes the handler as a
server error — not the client-side 400 `Invalid reorder request`, which is
produced only when the engine returns no rank (both inputs absent or
empty).  No rank is stored in the error case. -/
theorem C5_inverted_neighbors (db : List Subject) (id : Nat) (b a : String)
    (rb ra : LexoRank) (hb : parse b = some rb) (ha : parse a = some ra)
    (hab : ¬ a < b) :
    (reorderSubjects db id (some b) (some a)).1 =
      ReorderOutcome.serverError "Unable to rank between" ∧
    (reorderSubjects db id (some b) (some a)).2 = db ∧
    ReorderOutcome.serverError "Unable to rank between" ≠
      ReorderOutcome.badRequest := by
  have hfalse : rankLtB ra rb = false := rankLtB_false_of_not_strLt ha hb hab
  have hret : calculateNewRank (some b) (some a) =
      Except.error "Unable to rank between" := by
    rw [calculateNewRank_both hb ha, between_none_of_not_lt hfalse]
  unfold reorderSubjects
  rw [hret]
  exact ⟨rfl, rfl, fun hc => ReorderOutcome.noConfusion hc⟩

/-- C5 witness: an inverted pair (`after = "0|4"`, `before = "0|2"`) on a
one-row table. -/
theorem C5_witness :
    (reorderSubjects [⟨1, "S1", "0|3"⟩] 1 (some "0|2") (some "0|4")).1 =
      ReorderOutcome.serverError "Unable to rank between" ∧
    (reorderSubjects [⟨1, "S1", "0|3"⟩] 1 (some "0|2") (some "0|4")).2 =
      [⟨1, "S1", "0|3"⟩] ∧
    ReorderOutcome.serverError "Unable to rank between" ≠
      ReorderOutcome.badRequest :=
  C5_inverted_neighbors [⟨1, "S1", "0|3"⟩] 1 "0|2" "0|4"
    ⟨0, [2]⟩ ⟨0, [4]⟩ (by decide) (by decide)
    (lt_asymm (@strLt_of_parse "0|2" "0|4" ⟨0, [2]⟩ ⟨0, [4]⟩
      (by decide) (by decide) (by decide)))

/-- C5 counterexample: equal neighbour ranks are not rejected before the
engine runs — the request ends in a server error from inside the engine,
not in the client-side 400 `Invalid reorder request`. -/
theorem C5_counterexample :
    parse "0|5" = some ⟨0, [5]⟩ ∧
    (reorderSubjects [⟨1, "S1", "0|5"⟩] 1 (some "0|5") (some "0|5")).1 =
      ReorderOutcome.serverError "Unable to rank between" ∧
    (reorderSubjects [⟨1, "S1", "0|5"⟩] 1 (some "0|5") (some "0|5")).1 ≠
      ReorderOutcome.badRequest :=
  ⟨by decide, rfl, fun hc => ReorderOutcome.noConfusion hc⟩

/-! ## Claim C6: malformed rank strings fail closed -/

/-- C6 (amended): every *non-empty* string that violates the rank grammar
makes `calculateNewRank` signal a parse error, in either argument position
and whatever the other argument is; no rank is fabricated.  The empty
string is the exception: the handler's truthiness test treats it as an
absent neighbour, so it never reaches the parser. -/
theorem C6_malformed (s : String) (hne : s ≠ "") (hbad : parse s = none) :
    (∀ x, calculateNewRank (some s) x = Except.error "Invalid rank string") ∧
    (∀ x, calculateNewRank x (some s) = Except.error "Invalid rank string") := by
  have herr : parseNeighbor (some s) = Except.error "Invalid rank string" :=
    parseNeighbor_bad hne hbad
  constructor
  · intro x
    unfold calculateNewRank
    rw [herr]
  · intro x
    unfold calculateNewRank
    cases hx : parseNeighbor x with
    | error e =>
      have he := parseNeighbor_error hx
      dsimp only
      rw [he]
    | ok v =>
      dsimp only
      rw [herr]

/-- C6 witness: the malformed string `"abc"` is rejected in both argument
positions. -/
theorem C6_witness :
    calculateNewRank (some "abc") none = Except.error "Invalid rank string" ∧
    calculateNewRank none (some "abc") = Except.error "Invalid rank string" :=
  ⟨(C6_malformed "abc" (by decide) (by decide)).1 none,
   (C6_malformed "abc" (by decide) (by decide)).2 none⟩

/-- C6 counterexample: the empty string violates the grammar
(`parse "" = none`), yet `calculateNewRank("", "0|hzzzzz")` does not signal
an error — the JavaScript truthiness test on `beforeRank` silently treats
`""` as absent and a rank is produced from the other neighbour. -/
theorem C6_counterexample :
    parse "" = none ∧
    calculateNewRank (some "") (some "0|hzzzzz") =
      Except.ok (some ⟨0, [17, 35, 35, 35, 35, 35, 0]⟩) :=
  ⟨rfl, rfl⟩

/-! ## Claim C7: round-trip validity of outputs -/

/-- C7: every rank the engine returns — through `between`, `genPrev` or
`genNext` — parses back to itself: generated ranks and hand-seeded ranks
need no special-casing. -/
theorem C7_roundtrip (b a : Option String) (m : LexoRank)
    (h : calculateNewRank b a = Except.ok (some m)) :
    parse (toStr m) = some m := by
  have hvm : validRank m := by
    rcases calculateNewRank_ok_some h with
      ⟨rb, ra, hb, ha, hbet⟩ | ⟨rb, hb, _, hgp⟩ | ⟨ra, _, ha, rfl⟩
    · obtain ⟨sb, _, hpb⟩ := parseNeighbor_ok_some hb
      obtain ⟨sa, _, hpa⟩ := parseNeighbor_ok_some ha
      exact between_valid (parse_some hpb).1 (parse_some hpa).1 hbet
    · obtain ⟨sb, _, hpb⟩ := parseNeighbor_ok_some hb
      exact genPrev_valid (parse_some hpb).1 hgp
    · obtain ⟨sa, _, hpa⟩ := parseNeighbor_ok_some ha
      exact genNext_valid (parse_some hpa).1
  exact parse_toStr hvm

/-- C7 witness: the rank generated after the canonical middle round-trips. -/
theorem C7_witness :
    calculateNewRank none (some "0|hzzzzz") =
      Except.ok (some ⟨0, [17, 35, 35, 35, 35, 35, 0]⟩) ∧
    parse (toStr ⟨0, [17, 35, 35, 35, 35, 35, 0]⟩) =
      some ⟨0, [17, 35, 35, 35, 35, 35, 0]⟩ :=
  ⟨rfl, C7_roundtrip none (some "0|hzzzzz") ⟨0, [17, 35, 35, 35, 35, 35, 0]⟩ rfl⟩

/-! ## Claim C8: append-at-end on creation -/

/-- C8: each create handler stores, for the new row, the generate-next of
the byte-wise maximum rank of its ordering scope (all subjects; topics of
the subject; articles of the topic) when the scope is non-empty, and the
canonical middle rank when the scope is empty — so the new item sorts
strictly after every existing item of the scope. -/
theorem C8_create_append :
    (∀ (db : List Subject) (newId : Nat) (title : String),
      (∀ s ∈ db.map (fun r => r.rank), ∃ r, parse s = some r) →
      ∃ rk, createSubject db newId title = Except.ok (db ++ [⟨newId, title, rk⟩], rk) ∧
        (∀ s ∈ db.map (fun r => r.rank), s < rk) ∧
        (db = [] → rk = toStr middle)) ∧
    (∀ (db : List Topic) (newId : Nat) (title : String) (subjectId : Nat),
      (∀ s ∈ (db.filter (fun r => r.subject_id = subjectId)).map (fun r => r.rank),
        ∃ r, parse s = some r) →
      ∃ rk, createTopic db newId title subjectId =
          Except.ok (db ++ [⟨newId, subjectId, title, rk⟩], rk) ∧
        (∀ s ∈ (db.filter (fun r => r.subject_id = subjectId)).map (fun r => r.rank),
          s < rk) ∧
        (db.filter (fun r => r.subject_id = subjectId) = [] → rk = toStr middle)) ∧
    (∀ (db : List Article) (newId : Nat) (title : String) (topicId : Nat)
        (filePath : String),
      (∀ s ∈ (db.filter (fun r => r.topic_id = topicId)).map (fun r => r.rank),
        ∃ r, parse s = some r) →
      ∃ rk, createArticle db newId title topicId filePath =
          Except.ok (db ++ [⟨newId, topicId, title, filePath, rk⟩], rk) ∧
        (∀ s ∈ (db.filter (fun r => r.topic_id = topicId)).map (fun r => r.rank),
          s < rk) ∧
        (db.filter (fun r => r.topic_id = topicId) = [] → rk = toStr middle)) := by
  refine ⟨?_, ?_, ?_⟩
  · intro db newId title hvalid
    obtain ⟨m, hm, _, hlt, hmid⟩ :=
      newRankForCreate_spec (db.map (fun r => r.rank)) hvalid
    refine ⟨toStr m, ?_, hlt, fun he => ?_⟩
    · unfold createSubject
      rw [hm]
    · rw [hmid (by rw [he]; rfl)]
  · intro db newId title subjectId hvalid
    obtain ⟨m, hm, _, hlt, hmid⟩ :=
      newRankForCreate_spec
        ((db.filter (fun r => r.subject_id = subjectId)).map (fun r => r.rank)) hvalid
    refine ⟨toStr m, ?_, hlt, fun he => ?_⟩
    · unfold createTopic
      rw [hm]
    · rw [hmid (by rw [he]; rfl)]
  · intro db newId title topicId filePath hvalid
    obtain ⟨m, hm, _, hlt, hmid⟩ :=
      newRankForCreate_spec
        ((db.filter (fun r => r.topic_id = topicId)).map (fun r => r.rank)) hvalid
    refine ⟨toStr m, ?_, hlt, fun he => ?_⟩
    · unfold createArticle
      rw [hm]
    · rw [hmid (by rw [he]; rfl)]

/-- C8 witness: creating into empty scopes anchors at the canonical middle
rank. -/
theorem C8_witness :
    (∃ rk, createSubject [] 1 "S" = Except.ok ([⟨1, "S", rk⟩], rk) ∧
      (∀ s ∈ ([] : List Subject).map (fun r => r.rank), s < rk) ∧
      (([] : List Subject) = [] → rk = toStr middle)) ∧
    (∃ rk, createTopic [] 1 "T" 7 = Except.ok ([⟨1, 7, "T", rk⟩], rk) ∧
      (∀ s ∈ (([] : List Topic).filter (fun r => r.subject_id = 7)).map
        (fun r => r.rank), s < rk) ∧
      (([] : List Topic).filter (fun r => r.subject_id = 7) = [] →
        rk = toStr middle)) ∧
    (∃ rk, createArticle [] 1 "A" 9 "fp" = Except.ok ([⟨1, 9, "A", "fp", rk⟩], rk) ∧
      (∀ s ∈ (([] : List Article).filter (fun r => r.topic_id = 9)).map
        (fun r => r.rank), s < rk) ∧
      (([] : List Article).filter (fun r => r.topic_id = 9) = [] →
        rk = toStr middle)) :=
  ⟨C8_create_append.1 [] 1 "S" (by simp),
   C8_create_append.2.1 [] 1 "T" 7 (by simp),
   C8_create_append.2.2 [] 1 "A" 9 "fp" (by simp)⟩

/-! ## Claim C9: determinism of the rank computation -/

/-- C9: `calculateNewRank` is a pure function of its two arguments: equal
inputs give equal outputs.  (The source function reads no clock, no
randomness and no other rows; the embedding is therefore a plain function
and the property is input-determinism.) -/
theorem C9_deterministic (b1 a1 b2 a2 : Option String)
    (hb : b1 = b2) (ha : a1 = a2) :
    calculateNewRank b1 a1 = calculateNewRank b2 a2 := by
  rw [hb, ha]

/-- C9 witness. -/
theorem C9_witness :
    calculateNewRank (some "0|i00001") (some "0|hzzzzz") =
      calculateNewRank (some "0|i00001") (some "0|hzzzzz") :=
  C9_deterministic (some "0|i00001") (some "0|hzzzzz")
    (some "0|i00001") (some "0|hzzzzz") rfl rfl

/-! ## Claim C10: reorder and rename touch disjoint fields -/

/-- Every outcome of the subject reorder handler leaves the table either
untouched or rank-rewritten at the addressed id only. -/
theorem reorderSubjects_table (db : List Subject) (id : Nat)
    (b a : Option String) :
    (reorderSubjects db id b a).2 = db ∨
    ∃ X, (reorderSubjects db id b a).2 =
      db.map (fun r => if r.id = id then { r with rank := X } else r) := by
  unfold reorderSubjects
  cases hc : calculateNewRank b a with
  | error e => exact Or.inl rfl
  | ok v =>
    cases v with
    | none => exact Or.inl rfl
    | some m => exact Or.inr ⟨toStr m, rfl⟩

/-- Same shape for the topic reorder handler. -/
theorem reorderTopics_table (db : List Topic) (id : Nat)
    (b a : Option String) :
    (reorderTopics db id b a).2 = db ∨
    ∃ X, (reorderTopics db id b a).2 =
      db.map (fun r => if r.id = id then { r with rank := X } else r) := by
  unfold reorderTopics
  cases hc : calculateNewRank b a with
  | error e => exact Or.inl rfl
  | ok v =>
    cases v with
    | none => exact Or.inl rfl
    | some m => exact Or.inr ⟨toStr m, rfl⟩

/-- C10: a reorder request rewrites only the `rank` column — ids and titles
(and, for topics, the parent foreign key) of every row are unchanged, and
rows whose id differs from the addressed one are untouched entirely — while
a subject title update leaves every `rank` (and id) unchanged. -/
theorem C10_frame :
    (∀ (db : List Subject) (id : Nat) (b a : Option String),
      ((reorderSubjects db id b a).2).map (fun r => (r.id, r.title)) =
        db.map (fun r => (r.id, r.title))) ∧
    (∀ (db : List Subject) (id : Nat) (b a : Option String) (j : Nat)
        (r r' : Subject),
      db.get? j = some r → ((reorderSubjects db id b a).2).get? j = some r' →
      r'.id = r.id ∧ r'.title = r.title ∧ (r.id ≠ id → r' = r)) ∧
    (∀ (db : List Topic) (id : Nat) (b a : Option String),
      ((reorderTopics db id b a).2).map (fun r => (r.id, r.subject_id, r.title)) =
        db.map (fun r => (r.id, r.subject_id, r.title))) ∧
    (∀ (db : List Subject) (id : Nat) (t : String),
      (updateSubjectTitle db id t).map (fun r => (r.id, r.rank)) =
        db.map (fun r => (r.id, r.rank))) := by
  refine ⟨?_, ?_, ?_, ?_⟩
  · intro db id b a
    rcases reorderSubjects_table db id b a with he | ⟨X, he⟩
    · rw [he]
    · rw [he, List.map_map]
      refine List.map_congr_left ?_
      intro r _
      by_cases hr : r.id = id <;> simp [hr]
  · intro db id b a j r r' hr hr'
    rcases reorderSubjects_table db id b a with he | ⟨X, he⟩
    · rw [he, hr] at hr'
      obtain rfl : r = r' := Option.some_injective _ hr'
      exact ⟨rfl, rfl, fun _ => rfl⟩
    · rw [he, List.get?_map, hr] at hr'
      simp only [Option.map_some'] at hr'
      obtain rfl : (if r.id = id then { r with rank := X } else r) = r' :=
        Option.some_injective _ hr'
      by_cases hid : r.id = id
      · rw [if_pos hid]
        exact ⟨rfl, rfl, fun hc => absurd hid hc⟩
      · rw [if_neg hid]
        exact ⟨rfl, rfl, fun _ => rfl⟩
  · intro db id b a
    rcases reorderTopics_table db id b a with he | ⟨X, he⟩
    · rw [he]
    · rw [he, List.map_map]
      refine List.map_congr_left ?_
      intro r _
      by_cases hr : r.id = id <;> simp [hr]
  · intro db id t
    unfold updateSubjectTitle
    rw [List.map_map]
    refine List.map_congr_left ?_
    intro r _
    by_cases hr : r.id = id <;> simp [hr]

/-- C10 witness (the row-level part has hypotheses): a two-row table, one
row addressed, one not. -/
theorem C10_witness :
    [⟨1, "S1", "0|3"⟩, ⟨2, "S2", "0|4"⟩].get? 1 = some (⟨2, "S2", "0|4"⟩ : Subject) ∧
    ((reorderSubjects [⟨1, "S1", "0|3"⟩, ⟨2, "S2", "0|4"⟩] 1
        none (some "0|4")).2).get? 1 = some (⟨2, "S2", "0|4"⟩ : Subject) ∧
    ((⟨2, "S2", "0|4"⟩ : Subject).id = (⟨2, "S2", "0|4"⟩ : Subject).id ∧
      (⟨2, "S2", "0|4"⟩ : Subject).title = (⟨2, "S2", "0|4"⟩ : Subject).title ∧
      ((⟨2, "S2", "0|4"⟩ : Subject).id ≠ 1 →
        (⟨2, "S2", "0|4"⟩ : Subject) = ⟨2, "S2", "0|4"⟩)) :=
  ⟨rfl, rfl,
   C10_frame.2.1 [⟨1, "S1", "0|3"⟩, ⟨2, "S2", "0|4"⟩] 1 none (some "0|4") 1
     ⟨2, "S2", "0|4"⟩ ⟨2, "S2", "0|4"⟩ rfl rfl⟩

end Bodhak
